import Mathlib

/-!
Shallow embedding of `lispfmt` (`src/lib.rs`), a single-pass pretty-printer
for Lisp token streams, together with proofs about its formatting behaviour.

Conventions of the embedding:
* The Rust `String` output buffer is stored REVERSED as a `List Char`
  (`output.head?` is the most recently written character), so that
  `String::push` is `List.cons`, `String::pop` is `List.tail`,
  `ends_with('\n')` inspects `head?`, and stripping trailing line breaks is
  `List.dropWhile`.  The final result un-reverses the buffer.
* The Rust `Vec` stacks `levels` / `is_operator` are stored with the top of
  the stack at the HEAD of the list (`Vec::push` is `cons`, `Vec::pop` is
  `tail`, `last()` is `head?`).
* The caller-supplied `Atom` trait object is a record of its three
  operations; the fallible `Display` rendering is an `Option String`
  (`none` models a rendering failure, the only error `format` propagates).
* `usize` is `Nat`; the two `- 1` subtractions of the source are kept as
  truncated `Nat` subtraction, and the no-underflow claim is settled by the
  invariant `awaiting_new_level → 1 ≤ x`.
-/

set_option autoImplicit false

namespace Lispfmt

/-- The `Atom` trait of `src/lib.rs`: a caller-supplied primitive Lisp value
with a monospace display width, an optional custom indentation used when the
atom heads a list, and a fallible textual rendering (`Display`). -/
structure AtomData where
  width : Nat
  custom_indentation : Option Nat
  render : Option String
  deriving Repr, DecidableEq

/-- `Token` of `src/lib.rs`: the smallest unit of Lisp syntax. -/
inductive Token where
  /-- An atom. -/
  | atom (a : AtomData)
  /-- An opening parenthesis. -/
  | lparen
  /-- A closing parenthesis. -/
  | rparen
  /-- A prefix operator whose display width equals its byte count. -/
  | prefixOperator (op : String)
  /-- An explicit line break. -/
  | newLine
  /-- A line comment with an implicit line break after it. -/
  | comment (text : String)
  deriving Repr, DecidableEq

/-- Is the token `Token::NewLine`?  (Rust `matches!(it, Token::NewLine)`.) -/
def Token.isNewLine : Token → Bool
  | .newLine => true
  | _ => false

/-- Is the token `Token::LParen`?  (Rust `matches!(token, Token::LParen)`.) -/
def Token.isLParen : Token → Bool
  | .lparen => true
  | _ => false

/-- The `Formatter` struct of `src/lib.rs`.  `output` is the reversed
character buffer; `levels` and `is_operator` carry the stack top at the list
head. -/
structure Formatter where
  output : List Char
  default_indentation : Nat
  preceded_by_expression : Bool
  levels : List Nat
  is_operator : List Bool
  awaiting_new_level : Bool
  x : Nat
  deriving Repr, DecidableEq

/-- `String::push_str` on the reversed buffer. -/
def pushStr (out : List Char) (s : String) : List Char :=
  s.data.reverse ++ out

/-- `output.ends_with('\n')` on the reversed buffer. -/
def endsWithNL (out : List Char) : Bool :=
  out.head? = some '\n'

/-- `output.ends_with("\n\n")` on the reversed buffer. -/
def endsWithTwoNL (out : List Char) : Bool :=
  match out with
  | c1 :: c2 :: _ => c1 == '\n' && c2 == '\n'
  | _ => false

/-- `output.ends_with(|c: char| c != '\n')` on the reversed buffer: the buffer
is nonempty and its last character is not a line break. -/
def endsWithNonNL (out : List Char) : Bool :=
  match out with
  | c :: _ => c != '\n'
  | [] => false

/-- `Formatter::leading_space` of `src/lib.rs`: at a line start, indent to the
innermost level (or column 0); otherwise put one separating space after an
expression. -/
def Formatter.leading_space (s : Formatter) : Formatter :=
  if endsWithNL s.output then
    let x := s.levels.headD 0
    { s with x := x, output := List.replicate x ' ' ++ s.output }
  else if s.preceded_by_expression then
    { s with output := ' ' :: s.output, x := s.x + 1 }
  else
    s

/-- `Formatter::put_default_level_or_leading_space` of `src/lib.rs`. -/
def Formatter.put_default_level_or_leading_space (s : Formatter) : Formatter :=
  if s.awaiting_new_level then
    { s with levels := (s.x + s.default_indentation - 1) :: s.levels,
             is_operator := false :: s.is_operator }
  else
    s.leading_space

/-- `Formatter::token` of `src/lib.rs`: process one token.  Returns `none`
exactly when an atom's rendering fails (the `write!(...)?` of the source). -/
def Formatter.token (s : Formatter) : Token → Option Formatter
  | .atom a =>
    let width := a.width
    let s1 :=
      if s.awaiting_new_level then
        { s with
          levels :=
            (match a.custom_indentation with
             | none => s.x + width + 1
             | some ind => s.x + ind - 1) :: s.levels,
          is_operator := false :: s.is_operator }
      else
        s.leading_space
    match a.render with
    | none => none
    | some r =>
      let s2 := { s1 with x := s1.x + width, output := pushStr s1.output r,
                          preceded_by_expression := true,
                          awaiting_new_level := false }
      some <|
        if s2.is_operator.head? = some true then
          { s2 with levels := s2.levels.tail, is_operator := s2.is_operator.tail }
        else
          s2
  | .lparen =>
    let s1 := s.put_default_level_or_leading_space
    some { s1 with output := '(' :: s1.output, x := s1.x + 1,
                   preceded_by_expression := false, awaiting_new_level := true }
  | .rparen =>
    let s1 := { s with output := ')' :: s.output.dropWhile (· == '\n'),
                       x := s.x + 1 }
    let s2 :=
      if s1.awaiting_new_level then
        s1
      else
        let s' :=
          if s1.is_operator.head? = some true then
            { s1 with levels := s1.levels.tail, is_operator := s1.is_operator.tail }
          else
            s1
        { s' with levels := s'.levels.tail, is_operator := s'.is_operator.tail }
    some { s2 with preceded_by_expression := true, awaiting_new_level := false }
  | .prefixOperator op =>
    let s1 := s.put_default_level_or_leading_space
    let s2 := { s1 with output := pushStr s1.output op, x := s1.x + op.length,
                        preceded_by_expression := false,
                        awaiting_new_level := false }
    some <|
      match s2.levels, s2.is_operator with
      | _ :: ls, true :: _ => { s2 with levels := s2.x :: ls }
      | _, _ => { s2 with levels := s2.x :: s2.levels,
                          is_operator := true :: s2.is_operator }
  | .newLine =>
    some <|
      if s.output.isEmpty || endsWithTwoNL s.output then
        s
      else
        { s with output := '\n' :: s.output,
                 preceded_by_expression := false, awaiting_new_level := false }
  | .comment text =>
    let s1 := s.put_default_level_or_leading_space
    let s2 :=
      if s1.awaiting_new_level then { s1 with output := ' ' :: s1.output } else s1
    some { s2 with output := '\n' :: pushStr s2.output text,
                   preceded_by_expression := false, awaiting_new_level := false }

/-- The driver loop of `format` in `src/lib.rs`: feed each token to the
engine, silently discarding the `NewLine` tokens that immediately follow an
`LParen`.  The source's `peek` loop is rendered as the `skip` flag, which is
set exactly while the previously processed token was an `LParen`. -/
def formatGo (s : Formatter) (skip : Bool) : List Token → Option Formatter
  | [] => some s
  | t :: ts =>
    if skip && t.isNewLine then
      formatGo s skip ts
    else
      match s.token t with
      | none => none
      | some s' => formatGo s' t.isLParen ts

/-- The fresh `Formatter` that `format` constructs. -/
def initFormatter (default_indentation : Nat) : Formatter :=
  { output := [], default_indentation := default_indentation,
    preceded_by_expression := false, levels := [], is_operator := [],
    awaiting_new_level := false, x := 0 }

/-- The post-processing of `format` in `src/lib.rs`: append one line break if
the output ends in a non-break character, else trim a doubled trailing break
to a single one. -/
def finalNewline (out : List Char) : List Char :=
  if endsWithNonNL out then '\n' :: out
  else if endsWithTwoNL out then out.tail
  else out

/-- `format` of `src/lib.rs`: run the driver from a fresh formatter, apply the
trailing-break post-processing, and un-reverse the buffer into a `String`.
`none` models the propagated rendering error. -/
def format (tokens : List Token) (default_indentation : Nat) : Option String :=
  (formatGo (initFormatter default_indentation) false tokens).map fun f =>
    String.mk (finalNewline f.output).reverse

/-! Helper lemmas about the engine's small steps. -/

@[simp] theorem leading_space_levels (s : Formatter) :
    s.leading_space.levels = s.levels := by
  unfold Formatter.leading_space
  split_ifs <;> rfl

@[simp] theorem leading_space_is_operator (s : Formatter) :
    s.leading_space.is_operator = s.is_operator := by
  unfold Formatter.leading_space
  split_ifs <;> rfl

@[simp] theorem leading_space_awaiting (s : Formatter) :
    s.leading_space.awaiting_new_level = s.awaiting_new_level := by
  unfold Formatter.leading_space
  split_ifs <;> rfl

@[simp] theorem leading_space_preceded (s : Formatter) :
    s.leading_space.preceded_by_expression = s.preceded_by_expression := by
  unfold Formatter.leading_space
  split_ifs <;> rfl

@[simp] theorem leading_space_default (s : Formatter) :
    s.leading_space.default_indentation = s.default_indentation := by
  unfold Formatter.leading_space
  split_ifs <;> rfl

/-- C6: the two stacks stay in lockstep.  From any state in which `levels` and
`is_operator` have equal length, processing any single token of any kind
leaves them with equal length again: every branch of `Formatter::token`
pushes and pops the two stacks only in matching pairs. -/
theorem c6_stacks_in_lockstep (s : Formatter) (t : Token) (s' : Formatter)
    (hlen : s.levels.length = s.is_operator.length)
    (hs : s.token t = some s') :
    s'.levels.length = s'.is_operator.length := by
  cases t with
  | atom a =>
    cases hr : a.render with
    | none => simp [Formatter.token, hr] at hs
    | some r =>
      simp only [Formatter.token, hr, Option.some.injEq] at hs
      subst hs
      repeat' split
      all_goals simp_all [List.length_tail]
  | lparen =>
    simp only [Formatter.token, Formatter.put_default_level_or_leading_space,
      Option.some.injEq] at hs
    subst hs
    repeat' split
    all_goals simp_all [List.length_tail]
  | rparen =>
    simp only [Formatter.token, Option.some.injEq] at hs
    subst hs
    repeat' split
    all_goals simp_all [List.length_tail]
  | prefixOperator op =>
    simp only [Formatter.token, Formatter.put_default_level_or_leading_space,
      Option.some.injEq] at hs
    subst hs
    repeat' split
    all_goals simp_all [List.length_tail]
  | newLine =>
    simp only [Formatter.token, Option.some.injEq] at hs
    subst hs
    repeat' split
    all_goals simp_all [List.length_tail]
  | comment text =>
    simp only [Formatter.token, Formatter.put_default_level_or_leading_space,
      Option.some.injEq] at hs
    subst hs
    repeat' split
    all_goals simp_all [List.length_tail]

/-- C6 witness: the lockstep theorem applied at a concrete state and token. -/
theorem c6_witness :
    (initFormatter 2).levels.length = (initFormatter 2).is_operator.length ∧
    ∀ s', (initFormatter 2).token .lparen = some s' →
      s'.levels.length = s'.is_operator.length :=
  ⟨rfl, fun s' hs => c6_stacks_in_lockstep (initFormatter 2) .lparen s' rfl hs⟩

/-- C5 counterexample: an excess `RParen` arriving while a transient
prefix-operator entry is pending (tokens `' )` — one `RParen`, no `LParen`)
pops that entry: the stacks go from `([1], [true])` to `([], [])`, so they
are not left unchanged by the excess `RParen`. -/
theorem c5_counterexample :
    (formatGo (initFormatter 2) false [.prefixOperator "'"]).map
        (fun f => (f.levels, f.is_operator)) = some ([1], [true]) ∧
    (formatGo (initFormatter 2) false [.prefixOperator "'", .rparen]).map
        (fun f => (f.levels, f.is_operator)) = some ([], []) := ⟨rfl, rfl⟩

/-- C5 amended: an excess closing parenthesis never faults.  From any state
the `RParen` step succeeds (returns a state, never an error), appends `)`
after stripping trailing line breaks and advances the column cursor by one;
and from any state with both stacks empty (no open level and no pending
operator entry — the situation of an excess `RParen` with nothing pending)
it leaves both stacks empty, so formatting continues normally.  A pending
transient prefix-operator entry, however, is popped by an excess `RParen`,
as the counterexample shows. -/
theorem c5_excess_rparen_harmless :
    (∀ s : Formatter, ∃ s', s.token .rparen = some s' ∧ s'.x = s.x + 1 ∧
      s'.output = ')' :: s.output.dropWhile (· == '\n') ∧
      s'.preceded_by_expression = true ∧ s'.awaiting_new_level = false) ∧
    (∀ s : Formatter, s.levels = [] → s.is_operator = [] →
      ∃ s', s.token .rparen = some s' ∧ s'.levels = [] ∧
        s'.is_operator = []) := by
  constructor
  · intro s
    refine ⟨_, rfl, ?_⟩
    by_cases haw : s.awaiting_new_level
    · simp [Formatter.token, haw]
    · simp only [Formatter.token, haw, Bool.false_eq_true, if_false, reduceIte]
      split <;> simp
  · intro s hlev hop
    refine ⟨_, rfl, ?_⟩
    by_cases haw : s.awaiting_new_level <;>
      simp [Formatter.token, hlev, hop, haw]

/-- C5 witness: the amended excess-`RParen` theorem applied to the fresh
formatter, which has empty stacks. -/
theorem c5_witness :
    (∃ s', (initFormatter 0).token .rparen = some s' ∧
      s'.x = (initFormatter 0).x + 1 ∧
      s'.output = ')' :: (initFormatter 0).output.dropWhile (· == '\n') ∧
      s'.preceded_by_expression = true ∧ s'.awaiting_new_level = false) ∧
    ∃ s', (initFormatter 0).token .rparen = some s' ∧
      s'.levels = [] ∧ s'.is_operator = [] :=
  ⟨c5_excess_rparen_harmless.1 (initFormatter 0),
   c5_excess_rparen_harmless.2 (initFormatter 0) rfl rfl⟩

/-! The no-underflow invariant and totality of the pass. -/

/-- The engine invariant behind the two `- 1` subtractions of the source:
whenever a list's indentation is still unresolved (`awaiting_new_level` is
set), a `(` has just been written, so the column cursor is at least 1. -/
def noUnderflow (s : Formatter) : Prop :=
  s.awaiting_new_level = true → 1 ≤ s.x

/-- Does this token's processing always succeed?  Only an atom whose rendering
fails can make `Formatter::token` return an error. -/
def tokRenderOk : Token → Bool
  | .atom a => a.render.isSome
  | _ => true

/-- All atoms of the stream render successfully. -/
def rendersOk (ts : List Token) : Bool :=
  ts.all tokRenderOk

/-- `Formatter::token` succeeds on every token whose atom (if any) renders. -/
theorem token_isSome (s : Formatter) (t : Token) (h : tokRenderOk t = true) :
    (s.token t).isSome = true := by
  cases t with
  | atom a =>
    cases hr : a.render with
    | none => simp [tokRenderOk, hr] at h
    | some r => simp [Formatter.token, hr]
  | lparen => rfl
  | rparen => rfl
  | prefixOperator op => rfl
  | newLine => rfl
  | comment text => rfl

/-- Each step of the engine preserves the `noUnderflow` invariant. -/
theorem token_noUnderflow (s : Formatter) (t : Token) (s' : Formatter)
    (hinv : noUnderflow s) (hs : s.token t = some s') : noUnderflow s' := by
  cases t with
  | atom a =>
    cases hr : a.render with
    | none => simp [Formatter.token, hr] at hs
    | some r =>
      simp only [Formatter.token, hr, Option.some.injEq] at hs
      subst hs
      repeat' split
      all_goals simp [noUnderflow]
  | lparen =>
    simp only [Formatter.token, Formatter.put_default_level_or_leading_space,
      Option.some.injEq] at hs
    subst hs
    repeat' split
    all_goals simp [noUnderflow]
  | rparen =>
    simp only [Formatter.token, Option.some.injEq] at hs
    subst hs
    repeat' split
    all_goals simp [noUnderflow]
  | prefixOperator op =>
    simp only [Formatter.token, Formatter.put_default_level_or_leading_space,
      Option.some.injEq] at hs
    subst hs
    repeat' split
    all_goals simp [noUnderflow]
  | newLine =>
    simp only [Formatter.token, Option.some.injEq] at hs
    subst hs
    split
    · exact hinv
    · simp [noUnderflow]
  | comment text =>
    simp only [Formatter.token, Formatter.put_default_level_or_leading_space,
      Option.some.injEq] at hs
    subst hs
    repeat' split
    all_goals simp [noUnderflow]

/-- The driver loop succeeds whenever every atom of the stream renders. -/
theorem formatGo_isSome :
    ∀ (ts : List Token) (s : Formatter) (skip : Bool),
      rendersOk ts = true → (formatGo s skip ts).isSome = true := by
  intro ts
  induction ts with
  | nil =>
    intro s skip _
    simp [formatGo]
  | cons t ts ih =>
    intro s skip h
    have ht : tokRenderOk t = true ∧ ts.all tokRenderOk = true := by
      simpa [rendersOk, List.all_cons, Bool.and_eq_true] using h
    by_cases hsk : (skip && t.isNewLine) = true
    · rw [formatGo, if_pos hsk]
      exact ih s skip ht.2
    · obtain ⟨s', hs'⟩ := Option.isSome_iff_exists.mp (token_isSome s t ht.1)
      rw [formatGo, if_neg hsk, hs']
      exact ih s' t.isLParen ht.2

/-- C10: `format` never panics from arithmetic underflow and its only failure
is a rendering error.  Conjuncts: the fresh formatter satisfies the invariant
`awaiting_new_level → 1 ≤ x`; every engine step preserves it; under the
invariant the two `x + indentation - 1` subtractions are exact (nothing is
truncated, so the `usize` subtraction cannot underflow); and for every stream
whose atoms all render, `format` returns a result. -/
theorem c10_no_underflow_total (d : Nat) :
    noUnderflow (initFormatter d) ∧
    (∀ (s : Formatter) (t : Token) (s' : Formatter),
        noUnderflow s → s.token t = some s' → noUnderflow s') ∧
    (∀ s : Formatter, noUnderflow s → s.awaiting_new_level = true →
        ∀ ind : Nat, s.x + ind - 1 + 1 = s.x + ind) ∧
    (∀ ts : List Token, rendersOk ts = true → (format ts d).isSome = true) := by
  refine ⟨?_, ?_, ?_, ?_⟩
  · intro h
    simp [initFormatter] at h
  · exact token_noUnderflow
  · intro s hinv haw ind
    have h1 : 1 ≤ s.x := hinv haw
    omega
  · intro ts h
    have := formatGo_isSome ts (initFormatter d) false h
    simpa [format, Option.isSome_map] using this

/-- C10 witness: the invariant theorem applied at a concrete state that has
`awaiting_new_level` set, plus `format` succeeding on a concrete stream. -/
theorem c10_witness :
    (∀ ind : Nat,
      ({ initFormatter 0 with awaiting_new_level := true, x := 1 } : Formatter).x
        + ind - 1 + 1 =
      ({ initFormatter 0 with awaiting_new_level := true, x := 1 } : Formatter).x
        + ind) ∧
    (format [.lparen, .rparen] 0).isSome = true :=
  ⟨(c10_no_underflow_total 0).2.2.1 _ (fun _ => Nat.le_refl 1) rfl,
   (c10_no_underflow_total 0).2.2.2 [.lparen, .rparen] rfl⟩

/-! Head-atom indentation rules. -/

/-- C1: for a list whose head is a plain atom (no custom indentation) of width
`w`, with the `(` at 0-based column `c` (so the cursor is at `c + 1` when the
head atom is processed), the level pushed for that list is `c + 1 + w + 1`;
the leading-space rule indents every continuation line to the innermost
level; and concretely, formatting `[(, foo, \n, bar, )]` with default
indentation 2 yields `"(foo\n     bar)\n"` with five leading spaces. -/
theorem c1_plain_head_atom_level :
    (∀ (s : Formatter) (a : AtomData) (r : String) (c : Nat),
        s.awaiting_new_level = true → a.custom_indentation = none →
        a.render = some r → s.x = c + 1 →
        ∃ s', s.token (.atom a) = some s' ∧
          s'.levels.head? = some (c + 1 + a.width + 1)) ∧
    (∀ (s : Formatter) (L : Nat),
        endsWithNL s.output = true → s.levels.head? = some L →
        s.leading_space.output = List.replicate L ' ' ++ s.output ∧
        s.leading_space.x = L) ∧
    format [.lparen, .atom ⟨3, none, some "foo"⟩, .newLine,
            .atom ⟨3, none, some "bar"⟩, .rparen] 2 =
      some "(foo\n     bar)\n" := by
  refine ⟨?_, ?_, by decide⟩
  · intro s a r c haw hcust hr hx
    cases hs : s.token (.atom a) with
    | none => simp [Formatter.token, hr] at hs
    | some s' =>
      refine ⟨s', rfl, ?_⟩
      simp only [Formatter.token, haw, hcust, hr, if_true, reduceIte,
        Option.some.injEq] at hs
      subst hs
      simp [hx]
  · intro s L hnl hL
    unfold Formatter.leading_space
    rw [if_pos hnl]
    exact ⟨by simp [List.headD_eq_head?, hL], by simp [List.headD_eq_head?, hL]⟩

/-- A concrete state just after an `(` was written at column 0: the cursor is
at column 1 and the enclosing list still awaits its level. -/
def afterLParenState : Formatter :=
  { initFormatter 2 with awaiting_new_level := true, x := 1, output := ['('] }

/-- A concrete state at a line start with innermost open level 5. -/
def lineStartState : Formatter :=
  { initFormatter 2 with output := ['\n'], levels := [5], is_operator := [false] }

/-- C1 witness: the level-push rule applied at the concrete state reached
after `(` at column 0 (cursor 1) with head atom `"foo"` of width 3, and the
leading-space rule applied at a concrete line start with innermost level 5. -/
theorem c1_witness :
    (∃ s', afterLParenState.token (.atom ⟨3, none, some "foo"⟩) = some s' ∧
      s'.levels.head? = some 5) ∧
    (lineStartState.leading_space.output = List.replicate 5 ' ' ++ ['\n'] ∧
      lineStartState.leading_space.x = 5) :=
  ⟨c1_plain_head_atom_level.1 afterLParenState _ "foo" 0 rfl rfl rfl rfl,
   c1_plain_head_atom_level.2.1 lineStartState 5 rfl rfl⟩

/-- C2: a head atom reporting custom indentation `n`, processed with the `(`
at 0-based column `c` (cursor `c + 1`), pushes the level `c + n` — that is,
`x + n - 1`, one less than the generic rule's `x + width + 1` would give for
the same `n`; concretely `(let` with `custom_indentation = 2` at column 0
indents continuation lines to column 2. -/
theorem c2_custom_indentation_level :
    (∀ (s : Formatter) (a : AtomData) (r : String) (n c : Nat),
        s.awaiting_new_level = true → a.custom_indentation = some n →
        a.render = some r → s.x = c + 1 →
        ∃ s', s.token (.atom a) = some s' ∧
          s'.levels.head? = some (c + n)) ∧
    format [.lparen, .atom ⟨3, some 2, some "let"⟩, .newLine,
            .atom ⟨1, none, some "x"⟩, .rparen] 2 = some "(let\n  x)\n" := by
  refine ⟨?_, by decide⟩
  intro s a r n c haw hcust hr hx
  cases hs : s.token (.atom a) with
  | none => simp [Formatter.token, hr] at hs
  | some s' =>
    refine ⟨s', rfl, ?_⟩
    simp only [Formatter.token, haw, hcust, hr, if_true, reduceIte,
      Option.some.injEq] at hs
    subst hs
    have harith : c + 1 + n - 1 = c + n := by omega
    simp [hx, harith]

/-- C2 witness: the custom-indentation rule applied at the concrete state
reached after `(` at column 0 with head atom `"let"` of width 3 declaring
custom indentation 2. -/
theorem c2_witness :
    ∃ s', afterLParenState.token (.atom ⟨3, some 2, some "let"⟩) = some s' ∧
      s'.levels.head? = some 2 :=
  c2_custom_indentation_level.1 afterLParenState _ "let" 2 0 rfl rfl rfl rfl

/-! Empty lists. -/

/-- The driver's skip of `NewLine` tokens after an `LParen`. -/
theorem formatGo_skip_newlines (s : Formatter) (n : Nat) (ts : List Token) :
    formatGo s true (List.replicate n .newLine ++ ts) = formatGo s true ts := by
  induction n with
  | zero => rfl
  | succ n ih =>
    rw [List.replicate_succ, List.cons_append, formatGo]
    simpa [Token.isNewLine] using ih

/-- C9 counterexample: an empty pair in head position (the inner pair of
`(() x)`) is still printed as contiguous `()`, but it does not leave the
stacks unchanged: the `(` resolves the enclosing list's pending level, so
across the inner pair the stacks go from `([], [])` to `([2], [false])`. -/
theorem c9_counterexample :
    format [.lparen, .lparen, .rparen, .atom ⟨1, none, some "x"⟩, .rparen] 2 =
      some "(() x)\n" ∧
    (formatGo (initFormatter 2) false [.lparen]).map
        (fun f => (f.levels, f.is_operator)) = some ([], []) ∧
    (formatGo (initFormatter 2) false [.lparen, .lparen, .rparen]).map
        (fun f => (f.levels, f.is_operator)) = some ([2], [false]) := by
  refine ⟨by decide, rfl, rfl⟩

/-- C9 amended: from every state, an adjacent `LParen`/`RParen` pair (an
empty list) emits exactly `()` with nothing between the two delimiters, and
`NewLine` tokens standing between them are discarded by the driver.  The
pair itself pushes no entry: the stacks after the pair equal the stacks
right after `put_default_level_or_leading_space` — the `(`'s resolution of
the **enclosing** list's pending level, which any head token would perform
and which the `)` does not pop — and in particular, whenever the enclosing
level is already resolved (`awaiting_new_level` false) the stacks are left
entirely unchanged. -/
theorem c9_empty_list (s : Formatter) (n : Nat) (ts : List Token) :
    formatGo s false (.lparen :: (List.replicate n .newLine ++ .rparen :: ts)) =
      formatGo s false (.lparen :: .rparen :: ts) ∧
    ∃ s1 s2, s.token .lparen = some s1 ∧ s1.token .rparen = some s2 ∧
      s2.output = ')' :: '(' :: s.put_default_level_or_leading_space.output ∧
      s2.levels = s.put_default_level_or_leading_space.levels ∧
      s2.is_operator = s.put_default_level_or_leading_space.is_operator ∧
      s2.x = s.put_default_level_or_leading_space.x + 2 ∧
      (s.awaiting_new_level = false →
        s2.levels = s.levels ∧ s2.is_operator = s.is_operator ∧
        s2.output = ')' :: '(' :: s.leading_space.output ∧
        s2.x = s.leading_space.x + 2) := by
  constructor
  · obtain ⟨s1, hs1⟩ : ∃ s1, s.token .lparen = some s1 := ⟨_, rfl⟩
    rw [formatGo, formatGo, if_neg (by simp), if_neg (by simp), hs1]
    simpa [Token.isLParen] using formatGo_skip_newlines s1 n (.rparen :: ts)
  · obtain ⟨s1, hs1⟩ : ∃ s1, s.token .lparen = some s1 := ⟨_, rfl⟩
    obtain ⟨s2, hs2⟩ : ∃ s2, s1.token .rparen = some s2 := ⟨_, rfl⟩
    refine ⟨s1, s2, hs1, hs2, ?_⟩
    simp only [Formatter.token, Option.some.injEq] at hs1
    subst hs1
    simp only [Formatter.token, Option.some.injEq] at hs2
    subst hs2
    refine ⟨by simp [List.dropWhile], by simp, by simp, by simp, ?_⟩
    intro h
    have hpd : s.put_default_level_or_leading_space = s.leading_space := by
      unfold Formatter.put_default_level_or_leading_space
      rw [if_neg (by simp [h])]
    exact ⟨by simp [hpd], by simp [hpd], by simp [hpd, List.dropWhile],
      by simp [hpd]⟩

/-- C9 witness: the amended theorem applied to the fresh formatter with one
interior `NewLine`, with the already-resolved-context consequences
extracted. -/
theorem c9_witness :
    (formatGo (initFormatter 2) false [.lparen, .newLine, .rparen] =
      formatGo (initFormatter 2) false [.lparen, .rparen]) ∧
    ∃ s1 s2, (initFormatter 2).token .lparen = some s1 ∧
      s1.token .rparen = some s2 ∧
      s2.levels = (initFormatter 2).levels ∧
      s2.is_operator = (initFormatter 2).is_operator ∧
      s2.output = ')' :: '(' :: (initFormatter 2).leading_space.output := by
  refine ⟨(c9_empty_list (initFormatter 2) 1 []).1, ?_⟩
  obtain ⟨s1, s2, h1, h2, -, -, -, -, himp⟩ :=
    (c9_empty_list (initFormatter 2) 1 []).2
  obtain ⟨g1, g2, g3, -⟩ := himp rfl
  exact ⟨s1, s2, h1, h2, g1, g2, g3⟩

/-! Prefix operators. -/

/-- C4 counterexample: after formatting `' ( a )` at top level the transient
operator entry is still on the stacks (`levels = [1]`, `is_operator =
[true]`), although both stacks were empty before the prefix operator; and a
subsequent continuation line indents to column 1, not 0 (the output shows one
leading space before `b`). -/
theorem c4_counterexample :
    format [.prefixOperator "'", .lparen, .atom ⟨1, none, some "a"⟩, .rparen,
        .newLine, .atom ⟨1, none, some "b"⟩] 2 = some "'(a)\n b\n" ∧
    (formatGo (initFormatter 2) false
        [.prefixOperator "'", .lparen, .atom ⟨1, none, some "a"⟩, .rparen]).map
        (fun f => (f.levels, f.is_operator)) = some ([1], [true]) ∧
    (initFormatter 2).levels = [] ∧ (initFormatter 2).is_operator = [] := by
  refine ⟨by decide, by decide, rfl, rfl⟩

/-- C4 amended: a prefix operator followed by a single **atom** restores the
stacks, provided the operator is processed in a clean context — the enclosing
list's level is already resolved (`awaiting_new_level` is false) and the
innermost stack entry is not itself a pending operator entry.  (For a
parenthesized form the transient entry survives the closing parenthesis and
is only popped together with the next atom or `RParen`, as the counterexample
shows.) -/
theorem c4_prefix_op_one_atom (s : Formatter) (op r : String) (a : AtomData)
    (hawait : s.awaiting_new_level = false)
    (htop : s.is_operator.head? ≠ some true)
    (hr : a.render = some r) :
    ∃ s1 s2, s.token (.prefixOperator op) = some s1 ∧
      s1.token (.atom a) = some s2 ∧
      s2.levels = s.levels ∧ s2.is_operator = s.is_operator := by
  obtain ⟨s1, hs1⟩ : ∃ s1, s.token (.prefixOperator op) = some s1 := ⟨_, rfl⟩
  have hfields : s1.levels = (s.leading_space.x + op.length) :: s.levels ∧
      s1.is_operator = true :: s.is_operator ∧
      s1.awaiting_new_level = false := by
    simp only [Formatter.token, Formatter.put_default_level_or_leading_space,
      hawait, Bool.false_eq_true, if_false, reduceIte, Option.some.injEq,
      leading_space_levels, leading_space_is_operator] at hs1
    subst hs1
    rcases hlev : s.levels with _ | ⟨l, ls⟩
    · rcases hop : s.is_operator with _ | ⟨b, bs⟩
      · simp [hlev, hop]
      · simp [hlev, hop]
    · rcases hop : s.is_operator with _ | ⟨b, bs⟩
      · simp [hlev, hop]
      · cases b
        · simp [hlev, hop]
        · exact absurd (show s.is_operator.head? = some true by simp [hop]) htop
  obtain ⟨s2, hs2⟩ := Option.isSome_iff_exists.mp
    (token_isSome s1 (.atom a) (by simp [tokRenderOk, hr]))
  refine ⟨s1, s2, hs1, hs2, ?_⟩
  simp only [Formatter.token, hr, hfields.2.2, Bool.false_eq_true, if_false,
    reduceIte, Option.some.injEq] at hs2
  subst hs2
  simp [hfields.1, hfields.2.1]

/-- C4 witness: the amended theorem applied to the fresh formatter (empty
stacks, resolved context) with operator `'` and atom `a`. -/
theorem c4_witness :
    ∃ s1 s2, (initFormatter 2).token (.prefixOperator "'") = some s1 ∧
      s1.token (.atom ⟨1, none, some "a"⟩) = some s2 ∧
      s2.levels = (initFormatter 2).levels ∧
      s2.is_operator = (initFormatter 2).is_operator :=
  c4_prefix_op_one_atom (initFormatter 2) "'" "a" ⟨1, none, some "a"⟩ rfl
    (by simp [initFormatter]) rfl

/-- Concatenation of a list of strings with nothing between them. -/
def concatAll : List String → String
  | [] => ""
  | o :: os => o ++ concatAll os

theorem pushStr_empty (out : List Char) : pushStr out "" = out := rfl

theorem pushStr_append (out : List Char) (a b : String) :
    pushStr out (a ++ b) = pushStr (pushStr out a) b := by
  simp [pushStr, String.data_append]

/-- Pushing a string free of line breaks cannot make the buffer end in one,
provided the string is nonempty or the buffer did not already end in one. -/
theorem endsWithNL_pushStr (out : List Char) (o : String)
    (hnl : ∀ ch ∈ o.data, ch ≠ '\n')
    (h : o.data ≠ [] ∨ endsWithNL out = false) :
    endsWithNL (pushStr out o) = false := by
  unfold pushStr
  cases hr : o.data.reverse with
  | nil =>
    have hd : o.data = [] := by simpa using congrArg List.reverse hr
    rcases h with h | h
    · exact absurd hd h
    · simpa [hr] using h
  | cons c cs =>
    have hc : c ∈ o.data := by
      have : c ∈ o.data.reverse := by simp [hr]
      simpa using this
    simp [hr, endsWithNL, hnl c hc]

/-- When the buffer does not end at a line start and no expression precedes,
the leading-space rule does nothing. -/
theorem leading_space_id (s : Formatter) (h3 : endsWithNL s.output = false)
    (h2 : s.preceded_by_expression = false) : s.leading_space = s := by
  unfold Formatter.leading_space
  rw [if_neg (by simp [h3]), if_neg (by simp [h2])]

/-- A run of further prefix operators after a first one merges into the
single transient stack slot: the stacks do not grow, the operators' texts are
emitted back to back, and the slot tracks the advancing column. -/
theorem prefix_run (ops : List String) :
    ∀ t : Formatter,
      t.awaiting_new_level = false → t.preceded_by_expression = false →
      endsWithNL t.output = false →
      t.levels.head? = some t.x → t.is_operator.head? = some true →
      (∀ o ∈ ops, ∀ ch ∈ o.data, ch ≠ '\n') →
      ∃ s', formatGo t false (ops.map .prefixOperator) = some s' ∧
        s'.output = pushStr t.output (concatAll ops) ∧
        s'.x = t.x + (ops.map String.length).sum ∧
        s'.levels = s'.x :: t.levels.tail ∧
        s'.is_operator = t.is_operator ∧
        s'.awaiting_new_level = false ∧
        s'.preceded_by_expression = false ∧
        endsWithNL s'.output = false := by
  induction ops with
  | nil =>
    intro t h1 h2 h3 h4 h5 _
    refine ⟨t, rfl, by simp [concatAll, pushStr], by simp, ?_, rfl, h1, h2, h3⟩
    cases hl : t.levels with
    | nil => rw [hl] at h4; simp at h4
    | cons a l =>
      rw [hl] at h4
      simp only [List.head?_cons, Option.some.injEq] at h4
      simp [h4]
  | cons op ops ih =>
    intro t h1 h2 h3 h4 h5 hnl
    obtain ⟨x0, tl, hlev⟩ : ∃ x0 tl, t.levels = x0 :: tl := by
      cases hl : t.levels with
      | nil => rw [hl] at h4; simp at h4
      | cons a l => exact ⟨a, l, rfl⟩
    have hx0 : x0 = t.x := by
      rw [hlev] at h4
      simpa using h4
    obtain ⟨bs, hops⟩ : ∃ bs, t.is_operator = true :: bs := by
      cases ho : t.is_operator with
      | nil => rw [ho] at h5; simp at h5
      | cons b l =>
        rw [ho] at h5
        simp only [List.head?_cons, Option.some.injEq] at h5
        exact ⟨l, by rw [h5]⟩
    obtain ⟨s1, hs1⟩ : ∃ s1, t.token (.prefixOperator op) = some s1 := ⟨_, rfl⟩
    have hls : t.leading_space = t := leading_space_id t h3 h2
    have hnlop : ∀ ch ∈ op.data, ch ≠ '\n' := hnl op (by simp)
    have hs1' := hs1
    simp only [Formatter.token, Formatter.put_default_level_or_leading_space,
      h1, Bool.false_eq_true, if_false, reduceIte, hls, hlev, hops,
      Option.some.injEq] at hs1'
    have e1 : s1.awaiting_new_level = false := by rw [← hs1']
    have e2 : s1.preceded_by_expression = false := by rw [← hs1']
    have e3 : s1.output = pushStr t.output op := by rw [← hs1']
    have e4 : s1.levels = (t.x + op.length) :: tl := by rw [← hs1']
    have e5 : s1.is_operator = true :: bs := by rw [← hs1']
    have e6 : s1.x = t.x + op.length := by rw [← hs1']
    have hstep := ih s1 e1 e2
      (by rw [e3]; exact endsWithNL_pushStr t.output op hnlop (Or.inr h3))
      (by rw [e4, e6]; rfl)
      (by rw [e5]; rfl)
      (fun o ho ch hch => hnl o (by simp [ho]) ch hch)
    obtain ⟨s', hgo, hout, hx, hlev', hops', haw', hpre', hnl'⟩ := hstep
    refine ⟨s', ?_, ?_, ?_, ?_, ?_, haw', hpre', hnl'⟩
    · rw [List.map_cons, formatGo, if_neg (by simp [Token.isNewLine]), hs1]
      simpa [Token.isLParen] using hgo
    · rw [hout, e3, concatAll, pushStr_append]
    · rw [hx, e6]
      simp [Nat.add_assoc]
    · rw [hlev', e4, hlev]
      simp
    · rw [hops', e5, hops]

/-- C7 counterexample: inside a freshly opened list (`awaiting_new_level`
still set), a run of two prefix operators grows the stacks by **two** entries
(the enclosing list's level that the first operator resolves, plus the merged
transient slot), not by at most one as the claim's parenthetical states. -/
theorem c7_counterexample :
    (formatGo (initFormatter 2) false [.lparen]).map
        (fun f => f.levels.length) = some 0 ∧
    (formatGo (initFormatter 2) false
        [.lparen, .prefixOperator "'", .prefixOperator "'"]).map
        (fun f => f.levels.length) = some 2 := ⟨rfl, rfl⟩

/-- The shape of the state after one prefix operator processed with the
enclosing level already resolved: the transient slot sits on top of the
stacks (grown by at most one entry), tracking the column after the operator's
text. -/
theorem prefix_first_shape (s s1 : Formatter) (op : String)
    (hawait : s.awaiting_new_level = false)
    (hs1 : s.token (.prefixOperator op) = some s1) :
    s1.awaiting_new_level = false ∧ s1.preceded_by_expression = false ∧
    s1.output = pushStr s.leading_space.output op ∧
    s1.x = s.leading_space.x + op.length ∧
    s1.levels.head? = some s1.x ∧ s1.is_operator.head? = some true ∧
    s1.levels.length ≤ s.levels.length + 1 := by
  simp only [Formatter.token, Formatter.put_default_level_or_leading_space,
    hawait, Bool.false_eq_true, if_false, reduceIte, leading_space_levels,
    leading_space_is_operator, Option.some.injEq] at hs1
  rcases hlev : s.levels with _ | ⟨l, ls⟩
  · rcases hops : s.is_operator with _ | ⟨b, bs⟩
    · simp only [hlev, hops] at hs1
      subst hs1
      refine ⟨rfl, rfl, rfl, rfl, rfl, rfl, ?_⟩
      simp [hlev]
    · simp only [hlev, hops] at hs1
      subst hs1
      refine ⟨rfl, rfl, rfl, rfl, rfl, rfl, ?_⟩
      simp [hlev]
  · rcases hops : s.is_operator with _ | ⟨b, bs⟩
    · simp only [hlev, hops] at hs1
      subst hs1
      refine ⟨rfl, rfl, rfl, rfl, rfl, rfl, ?_⟩
      simp [hlev]
    · cases b
      · simp only [hlev, hops] at hs1
        subst hs1
        refine ⟨rfl, rfl, rfl, rfl, rfl, rfl, ?_⟩
        simp [hlev]
      · simp only [hlev, hops] at hs1
        subst hs1
        refine ⟨rfl, rfl, rfl, rfl, rfl, rfl, ?_⟩
        simp only [hlev, List.length_cons]
        omega

/-- C7 amended: for a run of consecutive prefix operators processed in a
state whose enclosing level is already resolved (`awaiting_new_level` false),
the second and later operators never grow the stacks (the run adds at most
one entry, the merged transient slot), the later operators are emitted with
nothing between them, and the surviving transient level equals the column at
the end of the run: the column where the first operator started plus the sum
of all the operators' lengths. -/
theorem c7_consecutive_prefix_ops (s : Formatter) (op : String)
    (ops : List String)
    (hawait : s.awaiting_new_level = false)
    (hop : op.data ≠ [])
    (hnl : ∀ o ∈ op :: ops, ∀ ch ∈ o.data, ch ≠ '\n') :
    ∃ s1 s', s.token (.prefixOperator op) = some s1 ∧
      formatGo s1 false (ops.map .prefixOperator) = some s' ∧
      s'.levels.length = s1.levels.length ∧
      s1.levels.length ≤ s.levels.length + 1 ∧
      s'.output = pushStr s1.output (concatAll ops) ∧
      s'.levels.head? = some s'.x ∧
      s'.x = s.leading_space.x + op.length + (ops.map String.length).sum := by
  obtain ⟨s1, hs1⟩ : ∃ s1, s.token (.prefixOperator op) = some s1 := ⟨_, rfl⟩
  obtain ⟨e1, e2, e3, e4, e5, e6, e7⟩ := prefix_first_shape s s1 op hawait hs1
  have hnlop : ∀ ch ∈ op.data, ch ≠ '\n' := hnl op (by simp)
  obtain ⟨s', hgo, hout, hx, hlev', hops', haw', hpre', hnl'⟩ :=
    prefix_run ops s1 e1 e2
      (by rw [e3]; exact endsWithNL_pushStr _ op hnlop (Or.inl hop))
      e5 e6 (fun o ho => hnl o (by simp [ho]))
  refine ⟨s1, s', hs1, hgo, ?_, e7, hout, ?_, ?_⟩
  · rw [hlev']
    cases hl : s1.levels with
    | nil =>
      rw [hl] at e5
      simp at e5
    | cons a l => simp [hl]
  · rw [hlev']
    rfl
  · rw [hx, e4]

/-- C7 witness: the amended theorem applied to the run `' '` from the fresh
formatter. -/
theorem c7_witness :
    ∃ s1 s', (initFormatter 2).token (.prefixOperator "'") = some s1 ∧
      formatGo s1 false ([.prefixOperator "'"] : List Token) = some s' ∧
      s'.levels.length = s1.levels.length ∧
      s1.levels.length ≤ (initFormatter 2).levels.length + 1 ∧
      s'.output = pushStr s1.output (concatAll ["'"]) ∧
      s'.levels.head? = some s'.x ∧
      s'.x = (initFormatter 2).leading_space.x + "'".length
        + ((["'"] : List String).map String.length).sum :=
  c7_consecutive_prefix_ops (initFormatter 2) "'" ["'"] rfl (by decide)
    (by decide)

/-! Trailing line breaks. -/

/-- Number of trailing line-break characters of the buffer (equivalently,
leading characters of the reversed representation). -/
def trailingNLs (out : List Char) : Nat :=
  (out.takeWhile (· == '\n')).length

/-- Token hygiene for the trailing-break analysis, matching the documented
contracts of `Token` and `Atom`: comment texts are nonempty and contain no
embedded line break, atom renderings and prefix-operator texts contain no
line break. -/
def niceToken : Token → Bool
  | .atom a => (a.render.getD "").data.all (· != '\n')
  | .prefixOperator op => op.data.all (· != '\n')
  | .comment c => !c.data.isEmpty && c.data.all (· != '\n')
  | _ => true

theorem trailingNLs_cons_ne (c : Char) (out : List Char) (h : c ≠ '\n') :
    trailingNLs (c :: out) = 0 := by
  simp [trailingNLs, List.takeWhile_cons, h]

theorem trailingNLs_cons_nl (out : List Char) :
    trailingNLs ('\n' :: out) = trailingNLs out + 1 := by
  simp [trailingNLs, List.takeWhile_cons]

theorem pushStr_of_nil (out : List Char) (o : String) (h : o.data = []) :
    pushStr out o = out := by
  simp [pushStr, h]

theorem trailingNLs_pushStr_ne (out : List Char) (o : String)
    (hnl : ∀ ch ∈ o.data, ch ≠ '\n') (h : o.data ≠ []) :
    trailingNLs (pushStr out o) = 0 := by
  unfold pushStr
  cases hr : o.data.reverse with
  | nil =>
    exact absurd (by simpa using congrArg List.reverse hr) h
  | cons c cs =>
    have hc : c ∈ o.data := by
      have : c ∈ o.data.reverse := by simp [hr]
      simpa using this
    exact trailingNLs_cons_ne c _ (hnl c hc)

theorem trailingNLs_le_one (out : List Char) (h : endsWithTwoNL out = false) :
    trailingNLs out ≤ 1 := by
  match out with
  | [] => simp [trailingNLs]
  | [c] =>
    by_cases hc : c = '\n'
    · subst hc
      simp [trailingNLs_cons_nl, trailingNLs]
    · simp [trailingNLs_cons_ne c [] hc]
  | c :: c2 :: rest =>
    by_cases hc : c = '\n'
    · subst hc
      have hc2 : c2 ≠ '\n' := by
        intro h2
        subst h2
        simp [endsWithTwoNL] at h
      rw [trailingNLs_cons_nl, trailingNLs_cons_ne c2 rest hc2]
    · simp [trailingNLs_cons_ne c _ hc]

theorem trailingNLs_leading_space (s : Formatter)
    (h : trailingNLs s.output ≤ 2) :
    trailingNLs s.leading_space.output ≤ 2 := by
  unfold Formatter.leading_space
  split_ifs with h1 h2
  · cases hx : s.levels.headD 0 with
    | zero => simpa using h
    | succ n =>
      have : trailingNLs (List.replicate (n + 1) ' ' ++ s.output) = 0 := by
        rw [List.replicate_succ, List.cons_append]
        exact trailingNLs_cons_ne ' ' _ (by decide)
      simp only [hx]
      simp [this]
  · simp [trailingNLs_cons_ne ' ' s.output (by decide)]
  · exact h

/-- Each engine step keeps at most two trailing line breaks in the buffer,
for hygienic tokens. -/
theorem token_trailingNLs (s : Formatter) (t : Token) (s' : Formatter)
    (hnice : niceToken t = true) (hinv : trailingNLs s.output ≤ 2)
    (hs : s.token t = some s') : trailingNLs s'.output ≤ 2 := by
  cases t with
  | atom a =>
    cases hr : a.render with
    | none => simp [Formatter.token, hr] at hs
    | some r =>
      have hrnl : ∀ ch ∈ r.data, ch ≠ '\n' := by
        intro ch hch
        have h' := hnice
        simp only [niceToken, hr, Option.getD_some, List.all_eq_true] at h'
        simpa using h' ch hch
      simp only [Formatter.token, hr, Option.some.injEq] at hs
      have hout : s'.output =
          pushStr (if s.awaiting_new_level then s.output
            else s.leading_space.output) r := by
        rw [← hs]
        repeat' split
        all_goals rfl
      rw [hout]
      by_cases hrd : r.data = []
      · rw [pushStr_of_nil _ _ hrd]
        split
        · exact hinv
        · exact trailingNLs_leading_space s hinv
      · simp [trailingNLs_pushStr_ne _ r hrnl hrd]
  | lparen =>
    simp only [Formatter.token, Formatter.put_default_level_or_leading_space,
      Option.some.injEq] at hs
    have hout : s'.output = '(' ::
        (if s.awaiting_new_level then s.output else s.leading_space.output) := by
      rw [← hs]
      repeat' split
      all_goals rfl
    rw [hout, trailingNLs_cons_ne '(' _ (by decide)]
    omega
  | rparen =>
    simp only [Formatter.token, Option.some.injEq] at hs
    have hout : s'.output = ')' :: s.output.dropWhile (· == '\n') := by
      rw [← hs]
      repeat' split
      all_goals rfl
    rw [hout, trailingNLs_cons_ne ')' _ (by decide)]
    omega
  | prefixOperator op =>
    have hopnl : ∀ ch ∈ op.data, ch ≠ '\n' := by
      intro ch hch
      have h' := hnice
      simp only [niceToken, List.all_eq_true] at h'
      simpa using h' ch hch
    simp only [Formatter.token, Formatter.put_default_level_or_leading_space,
      Option.some.injEq] at hs
    have hout : s'.output =
        pushStr (if s.awaiting_new_level then s.output
          else s.leading_space.output) op := by
      rw [← hs]
      repeat' split
      all_goals rfl
    rw [hout]
    by_cases hod : op.data = []
    · rw [pushStr_of_nil _ _ hod]
      split
      · exact hinv
      · exact trailingNLs_leading_space s hinv
    · simp [trailingNLs_pushStr_ne _ op hopnl hod]
  | newLine =>
    simp only [Formatter.token, Option.some.injEq] at hs
    subst hs
    split
    · exact hinv
    · next hcond =>
      obtain ⟨-, h2⟩ : ¬s.output = [] ∧ endsWithTwoNL s.output = false := by
        simpa using hcond
      have := trailingNLs_le_one s.output h2
      simp only [trailingNLs_cons_nl]
      omega
  | comment text =>
    have hne : text.data ≠ [] ∧ ∀ ch ∈ text.data, ch ≠ '\n' := by
      have h' := hnice
      simp only [niceToken, Bool.and_eq_true, List.all_eq_true,
        Bool.not_eq_true'] at h'
      refine ⟨by simpa using h'.1, fun ch hch => by simpa using h'.2 ch hch⟩
    simp only [Formatter.token, Formatter.put_default_level_or_leading_space,
      Option.some.injEq] at hs
    have hout : ∃ X, s'.output = '\n' :: pushStr X text := by
      rw [← hs]
      repeat' split
      all_goals exact ⟨_, rfl⟩
    obtain ⟨X, hX⟩ := hout
    rw [hX, trailingNLs_cons_nl, trailingNLs_pushStr_ne X text hne.2 hne.1]
    omega

/-- The driver keeps at most two trailing line breaks in the buffer. -/
theorem formatGo_trailingNLs :
    ∀ (ts : List Token) (s : Formatter) (skip : Bool) (f : Formatter),
      ts.all niceToken = true → trailingNLs s.output ≤ 2 →
      formatGo s skip ts = some f → trailingNLs f.output ≤ 2 := by
  intro ts
  induction ts with
  | nil =>
    intro s skip f _ hinv hgo
    simp only [formatGo, Option.some.injEq] at hgo
    subst hgo
    exact hinv
  | cons t ts ih =>
    intro s skip f hall hinv hgo
    have hht : niceToken t = true ∧ ts.all niceToken = true := by
      simpa [List.all_cons, Bool.and_eq_true] using hall
    rw [formatGo] at hgo
    split at hgo
    · exact ih s skip f hht.2 hinv hgo
    · cases htok : s.token t with
      | none => rw [htok] at hgo; cases hgo
      | some s1 =>
        rw [htok] at hgo
        exact ih s1 _ f hht.2 (token_trailingNLs s t s1 hht.1 hinv htok) hgo

/-- The string ends with exactly one line-break character. -/
def endsWithOneNL (str : String) : Prop :=
  trailingNLs str.data.reverse = 1

/-- The post-processing of `format` normalizes at-most-two trailing breaks of
a nonempty buffer to exactly one. -/
theorem finalNewline_trailing (out : List Char) (h : trailingNLs out ≤ 2)
    (hne : out ≠ []) : trailingNLs (finalNewline out) = 1 := by
  match out, hne with
  | c :: rest, _ =>
    by_cases hc : c = '\n'
    · subst hc
      have e1 : endsWithNonNL ('\n' :: rest) = false := by
        simp [endsWithNonNL]
      match rest with
      | [] =>
        have e2 : endsWithTwoNL ['\n'] = false := rfl
        unfold finalNewline
        simp only [e1, e2, Bool.false_eq_true, if_false, reduceIte]
        simp [trailingNLs_cons_nl, trailingNLs]
      | c2 :: r2 =>
        by_cases hc2 : c2 = '\n'
        · subst hc2
          have e2 : endsWithTwoNL ('\n' :: '\n' :: r2) = true := rfl
          unfold finalNewline
          simp only [e1, e2, Bool.false_eq_true, if_false, if_true, reduceIte]
          have h0 : trailingNLs r2 = 0 := by
            rw [trailingNLs_cons_nl, trailingNLs_cons_nl] at h
            omega
          simp [List.tail, trailingNLs_cons_nl, h0]
        · have e2 : endsWithTwoNL ('\n' :: c2 :: r2) = false := by
            simp [endsWithTwoNL, hc2]
          unfold finalNewline
          simp only [e1, e2, Bool.false_eq_true, if_false, reduceIte]
          rw [trailingNLs_cons_nl, trailingNLs_cons_ne c2 r2 hc2]
    · have e1 : endsWithNonNL (c :: rest) = true := by
        simp [endsWithNonNL, hc]
      unfold finalNewline
      simp only [e1, if_true, reduceIte]
      rw [trailingNLs_cons_nl, trailingNLs_cons_ne c rest hc]

/-- C3 counterexample: the empty token stream formats to the empty string,
which does not end with a line break; and a stream ending in an empty-text
comment after a blank line formats to `"a\n\n"`, which ends with two. -/
theorem c3_counterexample :
    format ([] : List Token) 2 = some "" ∧
    format [.atom ⟨1, none, some "a"⟩, .newLine, .newLine, .comment ""] 0 =
      some "a\n\n" := by
  exact ⟨rfl, by decide⟩

/-- C3 amended: for every token stream of hygienic tokens (comment texts
nonempty and free of line breaks, atom renderings and operator texts free of
line breaks — the documented `Token`/`Atom` contracts), if `format` succeeds
and its result is nonempty, the result ends with exactly one line break. -/
theorem c3_trailing_newline (ts : List Token) (d : Nat) (out : String)
    (hnice : ts.all niceToken = true)
    (hfmt : format ts d = some out) (hne : out ≠ "") :
    endsWithOneNL out := by
  unfold format at hfmt
  cases hgo : formatGo (initFormatter d) false ts with
  | none => rw [hgo] at hfmt; cases hfmt
  | some f =>
    rw [hgo] at hfmt
    simp only [Option.map_some', Option.some.injEq] at hfmt
    subst hfmt
    have hf : trailingNLs f.output ≤ 2 :=
      formatGo_trailingNLs ts (initFormatter d) false f hnice
        (by simp [initFormatter, trailingNLs]) hgo
    have hfo : f.output ≠ [] := by
      intro h0
      exact hne (by simp [h0, finalNewline, endsWithNonNL, endsWithTwoNL])
    unfold endsWithOneNL
    have hdata : (String.mk (finalNewline f.output).reverse).data.reverse =
        finalNewline f.output := by simp
    rw [hdata]
    exact finalNewline_trailing f.output hf hfo

/-- C3 witness: the amended theorem applied to the one-atom stream, whose
output `"a\n"` ends with exactly one line break. -/
theorem c3_witness : endsWithOneNL "a\n" :=
  c3_trailing_newline [.atom ⟨1, none, some "a"⟩] 0 "a\n" (by decide)
    (by decide) (by decide)

/-! Flat atom/newline streams: the refinement claim. -/

/-- Is the token an `Atom`? -/
def Token.isAtom : Token → Bool
  | .atom _ => true
  | _ => false

/-- The tokens of a run of atom segments, each preceded by one `NewLine`. -/
def tailTokens : List (List AtomData) → List Token
  | [] => []
  | seg :: rest => Token.newLine :: (seg.map Token.atom ++ tailTokens rest)

/-- The token stream of consecutive atom segments separated by single
`NewLine` tokens: every stream made only of `Atom` and `NewLine` tokens has
exactly this shape (see `segsOf_complete`). -/
def flatTokens : List (List AtomData) → List Token
  | [] => []
  | seg :: rest => seg.map Token.atom ++ tailTokens rest

/-- Decompose an atom/newline stream into its atom segments. -/
def segsOf : List Token → List (List AtomData)
  | [] => [[]]
  | .newLine :: ts => [] :: segsOf ts
  | .atom a :: ts =>
    (match segsOf ts with
     | seg :: rest => (a :: seg) :: rest
     | [] => [[a]])
  | _ :: ts => segsOf ts

/-- Modelled from the claim: strings joined by a single separator. -/
def joinSep (sep : String) : List String → String
  | [] => ""
  | [l] => l
  | l :: l2 :: ls => l ++ sep ++ joinSep sep (l2 :: ls)

/-- Dropping a prefix of a list can only shorten it. -/
theorem length_dropWhile_le {α : Type} (p : α → Bool) :
    ∀ l : List α, (List.dropWhile p l).length ≤ l.length
  | [] => Nat.le_refl _
  | a :: l => by
    by_cases h : p a
    · simp only [List.dropWhile, h]
      exact Nat.le_succ_of_le (length_dropWhile_le p l)
    · simp [List.dropWhile, h]

/-- Modelled from the claim: no blank line at the very start. -/
def dropLeadingBlanks (ls : List String) : List String :=
  ls.dropWhile (· == "")

/-- Modelled from the claim: no blank line doubled anywhere — every run of
blank lines becomes a single one. -/
def collapseBlanks : List String → List String
  | [] => []
  | l :: rest =>
    if l == "" then "" :: collapseBlanks (rest.dropWhile (· == ""))
    else l :: collapseBlanks rest
termination_by ls => ls.length
decreasing_by
  · exact Nat.lt_succ_of_le (length_dropWhile_le _ _)
  · exact Nat.lt_succ_self _

/-- Modelled from the claim: no blank line at the very end. -/
def dropTrailingBlanks : List String → List String
  | [] => []
  | l :: ls =>
    match dropTrailingBlanks ls with
    | [] => if l == "" then [] else [l]
    | r => l :: r

/-- Modelled from the claim (§8 of the spec): the expected output of a flat
atom/newline stream — the lines (atoms joined by single spaces), the
caller's line breaks preserved except that no blank line appears at the very
start, at the very end, or doubled anywhere, joined by line breaks with
exactly one trailing line break. -/
def flatSpec (lines : List String) : String :=
  joinSep "\n"
      (dropTrailingBlanks (collapseBlanks (dropLeadingBlanks lines))) ++ "\n"

/-- The rendered line of one atom segment. -/
def segLine (seg : List AtomData) : String :=
  joinSep " " (seg.map fun a => a.render.getD "")

/-- Atom hygiene for the flat-stream claim: the rendering succeeds, is
nonempty and contains no line break. -/
def flatAtomOk (a : AtomData) : Bool :=
  a.render.isSome && !(a.render.getD "").data.isEmpty
    && (a.render.getD "").data.all (· != '\n')

/-- Reversed characters of lines given most recent first, separated by
single line breaks. -/
def revLinesChars : List String → List Char
  | [] => []
  | [l] => l.data.reverse
  | l :: l2 :: ls => l.data.reverse ++ '\n' :: revLinesChars (l2 :: ls)

/-- Left-to-right line normalization: `q` holds the emitted lines most
recent first, `m` counts the pending line-break requests since the last
emitted line.  A blank line only increments the pending count; a non-blank
line lands next to the previous one (one break) or after one blank line
(two breaks), and leading blanks are dropped while `q` is empty. -/
def normStep : List String → Nat → List String → List String × Nat
  | q, m, [] => (q, m)
  | q, m, l :: ls =>
    if l == "" then normStep q (m + 1) ls
    else if q.isEmpty then normStep [l] 0 ls
    else if m == 0 then normStep (l :: q) 0 ls
    else normStep (l :: "" :: q) 0 ls

/-- The buffer contents corresponding to a normalization state. -/
def normOutput (qm : List String × Nat) : List Char :=
  if qm.1.isEmpty then []
  else List.replicate (min qm.2 2) '\n' ++ revLinesChars qm.1

/-- Invariant of the emitted-lines accumulator: the most recent line is
non-blank and no line contains a line break. -/
def lineInv : List String → Prop
  | [] => True
  | l :: ls => l ≠ "" ∧ (∀ ch ∈ l.data, ch ≠ '\n') ∧
      ∀ l' ∈ ls, ∀ ch ∈ l'.data, ch ≠ '\n'

theorem segsOf_ne_nil : ∀ ts : List Token, segsOf ts ≠ [] := by
  intro ts
  induction ts with
  | nil => simp [segsOf]
  | cons t ts ih =>
    cases t with
    | atom a =>
      simp only [segsOf]
      cases h : segsOf ts with
      | nil => simp
      | cons seg rest => simp
    | newLine => simp [segsOf]
    | lparen => simpa [segsOf] using ih
    | rparen => simpa [segsOf] using ih
    | prefixOperator op => simpa [segsOf] using ih
    | comment c => simpa [segsOf] using ih

/-- Completeness of the segment encoding: every stream made only of `Atom`
and `NewLine` tokens is `flatTokens` of its segment decomposition. -/
theorem segsOf_complete : ∀ ts : List Token,
    ts.all (fun t => t.isAtom || t.isNewLine) = true →
    flatTokens (segsOf ts) = ts := by
  intro ts
  induction ts with
  | nil => intro _; rfl
  | cons t ts ih =>
    intro h
    obtain ⟨h1, h2⟩ : (t.isAtom || t.isNewLine) = true ∧
        ts.all (fun t => t.isAtom || t.isNewLine) = true := by
      simpa [List.all_cons] using h
    cases t with
    | atom a =>
      cases hs : segsOf ts with
      | nil => exact absurd hs (segsOf_ne_nil ts)
      | cons seg rest =>
        have hts := ih h2
        rw [hs] at hts
        simp only [flatTokens] at hts
        simp only [segsOf, hs, flatTokens, List.map_cons, List.cons_append]
        rw [hts]
    | newLine =>
      cases hs : segsOf ts with
      | nil => exact absurd hs (segsOf_ne_nil ts)
      | cons seg rest =>
        have hts := ih h2
        rw [hs] at hts
        simp only [flatTokens] at hts
        simp only [segsOf, hs, flatTokens, tailTokens, List.map_nil,
          List.nil_append]
        rw [hts]
    | lparen => simp [Token.isAtom, Token.isNewLine] at h1
    | rparen => simp [Token.isAtom, Token.isNewLine] at h1
    | prefixOperator op => simp [Token.isAtom, Token.isNewLine] at h1
    | comment c => simp [Token.isAtom, Token.isNewLine] at h1

theorem pushStr_joinSep_space (rs : List String) :
    ∀ (out : List Char) (r : String),
      pushStr out (joinSep " " (r :: rs)) =
        pushStr (pushStr out r) (concatAll (rs.map fun x => " " ++ x)) := by
  induction rs with
  | nil =>
    intro out r
    simp [joinSep, concatAll, pushStr_empty]
  | cons l ls ih =>
    intro out r
    show pushStr out (r ++ " " ++ joinSep " " (l :: ls)) = _
    rw [pushStr_append, pushStr_append]
    rw [ih (pushStr (pushStr out r) " ") l]
    show _ = pushStr (pushStr out r) ((" " ++ l) ++ concatAll (ls.map fun x => " " ++ x))
    rw [pushStr_append, pushStr_append]

/-- The characters of one rendered segment line: the head rendering first. -/
theorem joinSep_cons_data (sep r : String) (rs : List String) :
    ∃ X, (joinSep sep (r :: rs)).data = r.data ++ X ∧
      ∀ ch ∈ X, ch ∈ sep.data ∨ ∃ l ∈ rs, ch ∈ l.data := by
  induction rs generalizing r with
  | nil => exact ⟨[], by simp [joinSep], by simp⟩
  | cons l ls ih =>
    obtain ⟨X, hX, hmem⟩ := ih l
    refine ⟨sep.data ++ (joinSep sep (l :: ls)).data, ?_, ?_⟩
    · show ((r ++ sep) ++ joinSep sep (l :: ls)).data = _
      simp [String.data_append]
    · intro ch hch
      rcases List.mem_append.mp hch with hsep | hrest
      · exact Or.inl hsep
      · rw [hX] at hrest
        rcases List.mem_append.mp hrest with hr | hx
        · exact Or.inr ⟨l, by simp, hr⟩
        · rcases hmem ch hx with hsep | ⟨l', hl', hc⟩
          · exact Or.inl hsep
          · exact Or.inr ⟨l', by simp [hl'], hc⟩

/-- A rendered segment line of hygienic atoms is nonempty when the segment
is, and never contains a line break. -/
theorem segLine_ok (a : AtomData) (seg : List AtomData)
    (h : (a :: seg).all flatAtomOk = true) :
    (segLine (a :: seg)).data ≠ [] ∧
      ∀ ch ∈ (segLine (a :: seg)).data, ch ≠ '\n' := by
  have hok : ∀ b ∈ a :: seg, flatAtomOk b = true := by
    intro b hb
    exact List.all_eq_true.mp h b hb
  have hrender : ∀ b ∈ a :: seg, (b.render.getD "").data ≠ [] ∧
      ∀ ch ∈ (b.render.getD "").data, ch ≠ '\n' := by
    intro b hb
    have := hok b hb
    simp only [flatAtomOk, Bool.and_eq_true, List.all_eq_true] at this
    constructor
    · intro h0
      have := this.1.2
      simp [h0] at this
    · intro ch hch
      simpa using this.2 ch hch
  obtain ⟨X, hX, hmem⟩ :=
    joinSep_cons_data " " (a.render.getD "") (seg.map fun b => b.render.getD "")
  have hsl : (segLine (a :: seg)).data = (a.render.getD "").data ++ X := by
    simpa [segLine] using hX
  constructor
  · rw [hsl]
    intro h0
    have := (hrender a (by simp)).1
    exact this (List.append_eq_nil.mp h0).1
  · intro ch hch
    rw [hsl] at hch
    rcases List.mem_append.mp hch with hh | hx
    · exact (hrender a (by simp)).2 ch hh
    · rcases hmem ch hx with hsp | ⟨l', hl', hc⟩
      · intro hc
        subst hc
        simp at hsp
      · obtain ⟨b, hb, hbl⟩ := List.mem_map.mp hl'
        subst hbl
        exact (hrender b (by simp [hb])).2 ch hc

/-- `revLinesChars` of a stack with a nonempty head line starts with a
character of that line (hence not a line break when the line has none). -/
theorem revLinesChars_cons (l : String) (ls : List String) :
    revLinesChars (l :: ls) = l.data.reverse ++
      (match ls with | [] => [] | _ :: _ => '\n' :: revLinesChars ls) := by
  cases ls with
  | nil => simp [revLinesChars]
  | cons l2 ls2 => rfl

theorem revLinesChars_head (l : String) (ls : List String)
    (hl : l.data ≠ []) :
    ∃ c cs, revLinesChars (l :: ls) = c :: cs ∧ c ∈ l.data := by
  cases hr : l.data.reverse with
  | nil => exact absurd (by simpa using congrArg List.reverse hr) hl
  | cons c cs =>
    have hc : c ∈ l.data := by
      have : c ∈ l.data.reverse := by simp [hr]
      simpa using this
    rw [revLinesChars_cons, hr]
    exact ⟨c, cs ++ (match ls with | [] => [] | _ :: _ => '\n' :: revLinesChars ls),
      by simp, hc⟩

theorem leading_space_space (s : Formatter) (h3 : endsWithNL s.output = false)
    (h4 : s.preceded_by_expression = true) :
    s.leading_space = { s with output := ' ' :: s.output, x := s.x + 1 } := by
  unfold Formatter.leading_space
  rw [if_neg (by simp [h3]), if_pos h4]

theorem leading_space_at_zero (s : Formatter) (h1 : s.levels = [])
    (hnl : endsWithNL s.output = true) :
    s.leading_space = { s with x := 0 } := by
  unfold Formatter.leading_space
  rw [if_pos hnl]
  simp [h1]

theorem pushStr_space (out : List Char) : pushStr out " " = ' ' :: out := rfl

theorem flatAtomOk_render (a : AtomData) (h : flatAtomOk a = true) :
    ∃ r, a.render = some r ∧ r.data ≠ [] ∧ ∀ ch ∈ r.data, ch ≠ '\n' := by
  simp only [flatAtomOk, Bool.and_eq_true, List.all_eq_true] at h
  obtain ⟨r, hr⟩ := Option.isSome_iff_exists.mp h.1.1
  refine ⟨r, hr, ?_, ?_⟩
  · intro h0
    have := h.1.2
    rw [hr] at this
    simp only [Option.getD_some] at this
    simp [h0] at this
  · intro ch hch
    have := h.2 ch (by rw [hr]; simpa using hch)
    simpa using this

/-- Processing the remaining atoms of a line after its first one: each lands
after a single separating space. -/
theorem flat_seg_cont (seg : List AtomData) :
    ∀ (t : Formatter) (rest : List Token),
      t.levels = [] → t.is_operator = [] → t.awaiting_new_level = false →
      t.preceded_by_expression = true → endsWithNL t.output = false →
      seg.all flatAtomOk = true →
      ∃ t', formatGo t false (seg.map .atom ++ rest) = formatGo t' false rest ∧
        t'.output = pushStr t.output
          (concatAll (seg.map fun a => " " ++ a.render.getD "")) ∧
        t'.levels = [] ∧ t'.is_operator = [] ∧
        t'.awaiting_new_level = false ∧
        t'.preceded_by_expression = true ∧ endsWithNL t'.output = false := by
  induction seg with
  | nil =>
    intro t rest h1 h2 h3 h4 h5 _
    exact ⟨t, by simp, by simp [concatAll, pushStr_empty], h1, h2, h3, h4, h5⟩
  | cons a seg ih =>
    intro t rest h1 h2 h3 h4 h5 hok
    obtain ⟨hoka, hokrest⟩ : flatAtomOk a = true ∧ seg.all flatAtomOk = true := by
      simpa [List.all_cons] using hok
    obtain ⟨r, hr, hrne, hrnl⟩ := flatAtomOk_render a hoka
    obtain ⟨t1, ht1⟩ := Option.isSome_iff_exists.mp
      (token_isSome t (.atom a) (by simp [tokRenderOk, hr]))
    have ht1' := ht1
    simp only [Formatter.token, hr, h3, Bool.false_eq_true, if_false,
      reduceIte, leading_space_space t h5 h4, Option.some.injEq] at ht1'
    have e2 : t1.is_operator = [] := by rw [← ht1']; simp [h2]
    have e1 : t1.levels = [] := by rw [← ht1']; simp [h1, h2]
    have e3 : t1.awaiting_new_level = false := by rw [← ht1']; simp [h2]
    have e4 : t1.preceded_by_expression = true := by rw [← ht1']; simp [h2]
    have e5 : t1.output = pushStr (' ' :: t.output) r := by
      rw [← ht1']
      simp [h2]
    have e6 : endsWithNL t1.output = false := by
      rw [e5]
      exact endsWithNL_pushStr _ r hrnl (Or.inl hrne)
    obtain ⟨t', hgo, hout, f1, f2, f3, f4, f5⟩ :=
      ih t1 rest e1 e2 e3 e4 e6 hokrest
    refine ⟨t', ?_, ?_, f1, f2, f3, f4, f5⟩
    · rw [List.map_cons, List.cons_append, formatGo,
        if_neg (by simp [Token.isNewLine]), ht1]
      simpa [Token.isLParen] using hgo
    · rw [hout, e5]
      rw [List.map_cons, concatAll, hr]
      simp only [Option.getD_some]
      rw [pushStr_append, pushStr_append, pushStr_space]

/-- Processing one line's atoms from a line start (or the very beginning of
the output). -/
theorem flat_seg_start (seg : List AtomData) (t : Formatter)
    (rest : List Token)
    (h1 : t.levels = []) (h2 : t.is_operator = [])
    (h3 : t.awaiting_new_level = false)
    (hstart : (t.output = [] ∧ t.preceded_by_expression = false) ∨
      endsWithNL t.output = true)
    (hok : seg.all flatAtomOk = true) :
    ∃ t', formatGo t false (seg.map .atom ++ rest) = formatGo t' false rest ∧
      t'.output = pushStr t.output (segLine seg) ∧
      t'.levels = [] ∧ t'.is_operator = [] ∧ t'.awaiting_new_level = false ∧
      (seg = [] → t' = t) ∧
      (seg ≠ [] → t'.preceded_by_expression = true ∧
        endsWithNL t'.output = false) := by
  cases seg with
  | nil =>
    refine ⟨t, by simp, ?_, h1, h2, h3, fun _ => rfl, by simp⟩
    simp [segLine, joinSep, pushStr_empty]
  | cons a seg' =>
    obtain ⟨hoka, hokrest⟩ : flatAtomOk a = true ∧ seg'.all flatAtomOk = true := by
      simpa [List.all_cons] using hok
    obtain ⟨r, hr, hrne, hrnl⟩ := flatAtomOk_render a hoka
    have hls : t.leading_space.output = t.output := by
      rcases hstart with ⟨ho, hp⟩ | hnl
      · rw [leading_space_id t (by simp [endsWithNL, ho]) hp]
      · rw [leading_space_at_zero t h1 hnl]
    obtain ⟨t1, ht1⟩ := Option.isSome_iff_exists.mp
      (token_isSome t (.atom a) (by simp [tokRenderOk, hr]))
    have ht1' := ht1
    simp only [Formatter.token, hr, h3, Bool.false_eq_true, if_false,
      reduceIte, Option.some.injEq] at ht1'
    have e2 : t1.is_operator = [] := by rw [← ht1']; simp [h2]
    have e1 : t1.levels = [] := by rw [← ht1']; simp [h1, h2]
    have e3 : t1.awaiting_new_level = false := by rw [← ht1']; simp [h2]
    have e4 : t1.preceded_by_expression = true := by rw [← ht1']; simp [h2]
    have e5 : t1.output = pushStr t.output r := by
      rw [← ht1']
      simp [h2, hls]
    have e6 : endsWithNL t1.output = false := by
      rw [e5]
      exact endsWithNL_pushStr _ r hrnl (Or.inl hrne)
    obtain ⟨t', hgo, hout, f1, f2, f3, f4, f5⟩ :=
      flat_seg_cont seg' t1 rest e1 e2 e3 e4 e6 hokrest
    refine ⟨t', ?_, ?_, f1, f2, f3, by simp, fun _ => ⟨f4, f5⟩⟩
    · rw [List.map_cons, List.cons_append, formatGo,
        if_neg (by simp [Token.isNewLine]), ht1]
      simpa [Token.isLParen] using hgo
    · rw [hout, e5]
      have hseg : segLine (a :: seg') =
          joinSep " " (r :: seg'.map fun b => b.render.getD "") := by
        simp [segLine, hr]
      rw [hseg, pushStr_joinSep_space, List.map_map]
      rfl

theorem endsWithTwoNL_cons_ne (c : Char) (cs : List Char) (h : c ≠ '\n') :
    endsWithTwoNL (c :: cs) = false := by
  cases cs with
  | nil => rfl
  | cons c2 cs2 => simp [endsWithTwoNL, h]

theorem endsWithTwoNL_snd_ne (c : Char) (cs : List Char) (h : c ≠ '\n') :
    endsWithTwoNL ('\n' :: c :: cs) = false := by
  simp [endsWithTwoNL, h]

/-- Effect of one `NewLine` token at a line-normalization boundary with at
least one emitted line: the pending-break count advances (saturating at two
actual break characters in the buffer). -/
theorem newline_step_facts (s : Formatter) (l : String) (q' : List String)
    (m : Nat) (h3 : s.awaiting_new_level = false)
    (hout : s.output = normOutput (l :: q', m))
    (hinv : lineInv (l :: q')) :
    ∃ sn, s.token .newLine = some sn ∧
      sn.output = normOutput (l :: q', m + 1) ∧
      sn.levels = s.levels ∧ sn.is_operator = s.is_operator ∧
      sn.awaiting_new_level = false ∧
      endsWithNL sn.output = true := by
  obtain ⟨hl_ne, hl_nl, -⟩ := hinv
  have hlne' : l.data ≠ [] := fun h => hl_ne (String.ext (by simp [h]))
  obtain ⟨c, cs, hrev, hcmem⟩ := revLinesChars_head l q' hlne'
  have hcnl : c ≠ '\n' := hl_nl c hcmem
  have ho : s.output = List.replicate (min m 2) '\n' ++ c :: cs := by
    rw [hout]
    simp [normOutput, hrev]
  obtain ⟨sn, hsn⟩ : ∃ sn, s.token .newLine = some sn := ⟨_, rfl⟩
  have hsn' := hsn
  simp only [Formatter.token, Option.some.injEq] at hsn'
  refine ⟨sn, hsn, ?_⟩
  match m with
  | 0 =>
    have ho' : s.output = c :: cs := by simpa using ho
    have hcond : (s.output.isEmpty || endsWithTwoNL s.output) = false := by
      rw [ho']
      simp [endsWithTwoNL_cons_ne c cs hcnl]
    rw [← hsn', if_neg (by simp [hcond])]
    refine ⟨?_, by simp, by simp, by simp, ?_⟩
    · simp [ho', normOutput, hrev, List.replicate_succ]
    · simp [endsWithNL]
  | 1 =>
    have ho' : s.output = '\n' :: c :: cs := by simpa [List.replicate_succ] using ho
    have hcond : (s.output.isEmpty || endsWithTwoNL s.output) = false := by
      rw [ho']
      simp [endsWithTwoNL_snd_ne c cs hcnl]
    rw [← hsn', if_neg (by simp [hcond])]
    refine ⟨?_, by simp, by simp, by simp, ?_⟩
    · simp [ho', normOutput, hrev, List.replicate_succ]
    · simp [endsWithNL]
  | k + 2 =>
    have ho' : s.output = '\n' :: '\n' :: c :: cs := by
      have hmin : min (k + 2) 2 = 2 := by omega
      rw [hmin] at ho
      simpa [List.replicate_succ] using ho
    have hcond : (s.output.isEmpty || endsWithTwoNL s.output) = true := by
      rw [ho']
      simp [endsWithTwoNL]
    rw [← hsn', if_pos (by simp [hcond])]
    have hmin2 : min (k + 2 + 1) 2 = 2 := by omega
    refine ⟨?_, rfl, rfl, h3, ?_⟩
    · rw [ho']
      simp [normOutput, hrev, hmin2, List.replicate_succ]
    · rw [ho']
      simp [endsWithNL]

/-- The newline-then-segment chunks of a flat stream drive exactly the
line-normalization fold. -/
theorem flat_main (rest : List (List AtomData)) :
    ∀ (s : Formatter) (q : List String) (m : Nat),
      s.levels = [] → s.is_operator = [] → s.awaiting_new_level = false →
      (rest.all fun sg => sg.all flatAtomOk) = true →
      s.output = normOutput (q, m) →
      (q = [] → s.preceded_by_expression = false) →
      lineInv q →
      ∃ f, formatGo s false (tailTokens rest) = some f ∧
        f.output = normOutput (normStep q m (rest.map segLine)) ∧
        lineInv (normStep q m (rest.map segLine)).1 := by
  induction rest with
  | nil =>
    intro s q m h1 h2 h3 _ hout _ hinv
    refine ⟨s, by simp [tailTokens, formatGo], ?_, ?_⟩
    · simpa [normStep] using hout
    · simpa [normStep] using hinv
  | cons seg more ih =>
    intro s q m h1 h2 h3 hok hout hpre hinv
    obtain ⟨hokseg, hokmore⟩ : seg.all flatAtomOk = true ∧
        (more.all fun sg => sg.all flatAtomOk) = true := by
      simpa [List.all_cons] using hok
    rcases q with _ | ⟨l, q'⟩
    · -- nothing emitted yet: the newline is swallowed
      have ho : s.output = [] := by simpa [normOutput] using hout
      obtain ⟨sn, hsn⟩ : ∃ sn, s.token .newLine = some sn := ⟨_, rfl⟩
      have hsneq : sn = s := by
        have hsn' := hsn
        simp only [Formatter.token, Option.some.injEq] at hsn'
        rw [← hsn']
        simp [ho]
      subst hsneq
      obtain ⟨t', hgo, hout', f1, f2, f3, fnil, fcons⟩ :=
        flat_seg_start seg sn (tailTokens more) h1 h2 h3
          (Or.inl ⟨ho, hpre rfl⟩) hokseg
      have hstep : formatGo sn false (tailTokens (seg :: more)) =
          formatGo t' false (tailTokens more) := by
        rw [tailTokens, formatGo, if_neg (by simp), hsn]
        exact hgo
      by_cases hseg : seg = []
      · subst hseg
        have ht' : t' = sn := fnil rfl
        obtain ⟨f, hfgo, hfout, hfinv⟩ :=
          ih sn [] (m + 1) h1 h2 h3 hokmore (by simpa [normOutput] using ho)
            hpre trivial
        refine ⟨f, ?_, ?_, ?_⟩
        · rw [hstep, ht', hfgo]
        · simpa [normStep, segLine, joinSep] using hfout
        · simpa [normStep, segLine, joinSep] using hfinv
      · obtain ⟨a, seg'', rfl⟩ : ∃ a sg, seg = a :: sg := by
          cases seg with
          | nil => exact absurd rfl hseg
          | cons a sg => exact ⟨a, sg, rfl⟩
        obtain ⟨hlne, hlnl⟩ := segLine_ok a seg'' hokseg
        have hl0 : segLine (a :: seg'') ≠ "" := fun h => hlne (by rw [h])
        have hto : t'.output = (segLine (a :: seg'')).data.reverse := by
          rw [hout', ho]
          simp [pushStr]
        obtain ⟨f, hfgo, hfout, hfinv⟩ :=
          ih t' [segLine (a :: seg'')] 0 f1 f2 f3 hokmore
            (by rw [hto]; simp [normOutput, revLinesChars])
            (fun h => absurd h (by simp))
            ⟨hl0, hlnl, by simp⟩
        refine ⟨f, by rw [hstep, hfgo], ?_, ?_⟩
        · simpa [normStep, hl0] using hfout
        · simpa [normStep, hl0] using hfinv
    · -- at least one line emitted: the newline advances the pending count
      obtain ⟨sn, hsn, g1, g2, g3, g4, g5⟩ :=
        newline_step_facts s l q' m h3 hout hinv
      obtain ⟨t', hgo, hout', f1, f2, f3, fnil, fcons⟩ :=
        flat_seg_start seg sn (tailTokens more) (g2 ▸ h1) (g3 ▸ h2) g4
          (Or.inr g5) hokseg
      have hstep : formatGo s false (tailTokens (seg :: more)) =
          formatGo t' false (tailTokens more) := by
        rw [tailTokens, formatGo, if_neg (by simp), hsn]
        exact hgo
      by_cases hseg : seg = []
      · subst hseg
        have ht' : t' = sn := fnil rfl
        obtain ⟨f, hfgo, hfout, hfinv⟩ :=
          ih sn (l :: q') (m + 1) (g2 ▸ h1) (g3 ▸ h2) g4 hokmore g1
            (fun h => absurd h (by simp)) hinv
        refine ⟨f, ?_, ?_, ?_⟩
        · rw [hstep, ht', hfgo]
        · simpa [normStep, segLine, joinSep] using hfout
        · simpa [normStep, segLine, joinSep] using hfinv
      · obtain ⟨a, seg'', rfl⟩ : ∃ a sg, seg = a :: sg := by
          cases seg with
          | nil => exact absurd rfl hseg
          | cons a sg => exact ⟨a, sg, rfl⟩
        obtain ⟨hlne, hlnl⟩ := segLine_ok a seg'' hokseg
        have hl0 : segLine (a :: seg'') ≠ "" := fun h => hlne (by rw [h])
        obtain ⟨hl_ne, hl_nl, hq'_nl⟩ := hinv
        -- the new accumulator: the fresh line, one blank if breaks piled up
        by_cases hm : m = 0
        · subst hm
          have hto : t'.output =
              normOutput (segLine (a :: seg'') :: l :: q', 0) := by
            rw [hout', g1]
            simp only [normOutput, List.isEmpty_cons, Bool.false_eq_true,
              if_false, reduceIte]
            rw [revLinesChars_cons (segLine (a :: seg'')) (l :: q')]
            simp [pushStr, List.replicate_succ]
          obtain ⟨f, hfgo, hfout, hfinv⟩ :=
            ih t' (segLine (a :: seg'') :: l :: q') 0 f1 f2 f3 hokmore hto
              (fun h => absurd h (by simp))
              ⟨hl0, hlnl, by
                intro l' hl' ch hch
                rcases List.mem_cons.mp hl' with h | h
                · exact (h ▸ hl_nl) ch hch
                · exact hq'_nl l' h ch hch⟩
          refine ⟨f, by rw [hstep, hfgo], ?_, ?_⟩
          · simpa [normStep, hl0] using hfout
          · simpa [normStep, hl0] using hfinv
        · have hto : t'.output =
              normOutput (segLine (a :: seg'') :: "" :: l :: q', 0) := by
            rw [hout', g1]
            simp only [normOutput, List.isEmpty_cons, Bool.false_eq_true,
              if_false, reduceIte]
            rw [revLinesChars_cons (segLine (a :: seg'')) ("" :: l :: q'),
              revLinesChars_cons "" (l :: q')]
            have hmin : min (m + 1) 2 = 2 := by omega
            simp [pushStr, hmin, List.replicate_succ]
          obtain ⟨f, hfgo, hfout, hfinv⟩ :=
            ih t' (segLine (a :: seg'') :: "" :: l :: q') 0 f1 f2 f3 hokmore
              hto (fun h => absurd h (by simp))
              ⟨hl0, hlnl, by
                intro l' hl' ch hch
                rcases List.mem_cons.mp hl' with h | h
                · subst h
                  simp at hch
                · rcases List.mem_cons.mp h with h' | h'
                  · exact (h' ▸ hl_nl) ch hch
                  · exact hq'_nl l' h' ch hch⟩
          refine ⟨f, by rw [hstep, hfgo], ?_, ?_⟩
          · have hm0 : (m == 0) = false := by simpa using hm
            simpa [normStep, hl0, hm0] using hfout
          · have hm0 : (m == 0) = false := by simpa using hm
            simpa [normStep, hl0, hm0] using hfinv

/-- While nothing has been emitted, the pending-break count is irrelevant:
leading blank lines are dropped. -/
theorem normStep_nil_pending (ls : List String) :
    ∀ m m' : Nat, (normStep [] m ls).1 = (normStep [] m' ls).1 ∧
      ((normStep [] m ls).1 ≠ [] → normStep [] m ls = normStep [] m' ls) := by
  induction ls with
  | nil =>
    intro m m'
    exact ⟨rfl, fun h => absurd rfl h⟩
  | cons l ls ih =>
    intro m m'
    by_cases hl : l = ""
    · subst hl
      have hb : ("" == "") = true := by simp
      simp only [normStep, hb, if_true, reduceIte]
      exact ih (m + 1) (m' + 1)
    · have hbeq : (l == "") = false := by simpa using hl
      simp only [normStep, hbeq, Bool.false_eq_true, if_false, reduceIte,
        List.isEmpty_nil, if_true]
      exact ⟨trivial, fun _ => trivial⟩

theorem dropWhile_blank_replicate (k : Nat) (ls : List String) :
    List.dropWhile (· == "") (List.replicate k "" ++ ls) =
      List.dropWhile (· == "") ls := by
  induction k with
  | zero => rfl
  | succ k ih =>
    rw [List.replicate_succ, List.cons_append, List.dropWhile_cons]
    simp only [show (("" : String) == "") = true from by simp, if_true, reduceIte]
    exact ih

theorem collapseBlanks_cons_ne (l : String) (ls : List String) (h : l ≠ "") :
    collapseBlanks (l :: ls) = l :: collapseBlanks ls := by
  rw [collapseBlanks]
  simp [h]

theorem collapseBlanks_cons_blank (ls : List String) :
    collapseBlanks ("" :: ls) = "" :: collapseBlanks (ls.dropWhile (· == "")) := by
  rw [collapseBlanks]
  simp

theorem dropTrailingBlanks_cons_ne (l : String) (ls : List String)
    (h : l ≠ "") :
    dropTrailingBlanks (l :: ls) = l :: dropTrailingBlanks ls := by
  rw [dropTrailingBlanks]
  cases hd : dropTrailingBlanks ls with
  | nil => simp [h]
  | cons r rs => rfl

theorem dropTrailingBlanks_cons_of_ne (l : String) (ls : List String)
    (h : dropTrailingBlanks ls ≠ []) :
    dropTrailingBlanks (l :: ls) = l :: dropTrailingBlanks ls := by
  rw [dropTrailingBlanks]
  cases hd : dropTrailingBlanks ls with
  | nil => exact absurd hd h
  | cons r rs => rfl

/-- Once a line has been emitted, the normalization fold appends exactly the
collapsed and trailing-trimmed continuation. -/
theorem normStep_append (ls : List String) :
    ∀ (q : List String) (m : Nat), q ≠ [] →
      (normStep q m ls).1.reverse = q.reverse ++
        dropTrailingBlanks (collapseBlanks (List.replicate m "" ++ ls)) := by
  induction ls with
  | nil =>
    intro q m _
    have hz : dropTrailingBlanks (collapseBlanks (List.replicate m "")) = [] := by
      cases m with
      | zero => simp [collapseBlanks, dropTrailingBlanks]
      | succ k =>
        rw [List.replicate_succ, collapseBlanks_cons_blank]
        have hdw : List.dropWhile (· == "") (List.replicate k "") = [] := by
          have hrep := dropWhile_blank_replicate k ([] : List String)
          rw [List.append_nil] at hrep
          rw [hrep]
          rfl
        rw [hdw]
        simp [collapseBlanks, dropTrailingBlanks]
    simp [normStep, hz]
  | cons l ls ih =>
    intro q m hq
    by_cases hl : l = ""
    · subst hl
      have hrep : List.replicate m "" ++ "" :: ls =
          List.replicate (m + 1) "" ++ ls := by
        rw [List.replicate_succ']
        simp
      have hstep : normStep q m ("" :: ls) = normStep q (m + 1) ls := by
        simp [normStep]
      rw [hstep, hrep]
      exact ih q (m + 1) hq
    · have hbeq : (l == "") = false := by simpa using hl
      have hqe : q.isEmpty = false := by
        cases q with
        | nil => exact absurd rfl hq
        | cons a as => rfl
      by_cases hm : m = 0
      · subst hm
        have hstep : normStep q 0 (l :: ls) = normStep (l :: q) 0 ls := by
          simp [normStep, hbeq, hqe]
        rw [hstep, ih (l :: q) 0 (by simp)]
        have hcoll : collapseBlanks (List.replicate 0 "" ++ l :: ls) =
            l :: collapseBlanks ls := by
          simpa using collapseBlanks_cons_ne l ls hl
        rw [hcoll, dropTrailingBlanks_cons_ne l _ hl]
        simp
      · have hm0 : (m == 0) = false := by simpa using hm
        have hstep : normStep q m (l :: ls) = normStep (l :: "" :: q) 0 ls := by
          simp [normStep, hbeq, hqe, hm0]
        rw [hstep, ih (l :: "" :: q) 0 (by simp)]
        obtain ⟨k, rfl⟩ : ∃ k, m = k + 1 := ⟨m - 1, by omega⟩
        have hcoll : collapseBlanks (List.replicate (k + 1) "" ++ l :: ls) =
            "" :: l :: collapseBlanks ls := by
          rw [List.replicate_succ, List.cons_append, collapseBlanks_cons_blank]
          rw [dropWhile_blank_replicate]
          rw [List.dropWhile_cons]
          simp only [hbeq, Bool.false_eq_true, if_false, reduceIte]
          rw [collapseBlanks_cons_ne l ls hl]
        rw [hcoll]
        rw [dropTrailingBlanks_cons_of_ne "" _ (by
          rw [dropTrailingBlanks_cons_ne l _ hl]
          simp)]
        rw [dropTrailingBlanks_cons_ne l _ hl]
        simp

/-- The normalization fold from scratch computes exactly: drop leading blank
lines, collapse doubled blank lines, drop trailing blank lines. -/
theorem normStep_norm (ls : List String) :
    ((normStep [] 0 ls).1).reverse =
      dropTrailingBlanks (collapseBlanks (dropLeadingBlanks ls)) := by
  induction ls with
  | nil => simp [normStep, dropLeadingBlanks, collapseBlanks, dropTrailingBlanks]
  | cons l ls ih =>
    by_cases hl : l = ""
    · subst hl
      have hstep : normStep [] 0 ("" :: ls) = normStep [] 1 ls := by
        simp [normStep]
      have h1 := (normStep_nil_pending ls 1 0).1
      rw [hstep]
      have : ((normStep [] 1 ls).1).reverse = ((normStep [] 0 ls).1).reverse := by
        rw [h1]
      rw [this, ih]
      have : dropLeadingBlanks ("" :: ls) = dropLeadingBlanks ls := by
        simp [dropLeadingBlanks, List.dropWhile]
      rw [this]
    · have hbeq : (l == "") = false := by simpa using hl
      have hstep : normStep [] 0 (l :: ls) = normStep [l] 0 ls := by
        simp [normStep, hbeq]
      rw [hstep, normStep_append ls [l] 0 (by simp)]
      have hdl : dropLeadingBlanks (l :: ls) = l :: ls := by
        simp [dropLeadingBlanks, List.dropWhile_cons, hbeq]
      rw [hdl, collapseBlanks_cons_ne l ls hl, dropTrailingBlanks_cons_ne l _ hl]
      simp

/-- The fold never loses emitted lines; a non-blank input line guarantees a
non-empty result. -/
theorem normStep_ne_nil (ls : List String) :
    ∀ (q : List String) (m : Nat), (q ≠ [] ∨ ∃ l ∈ ls, l ≠ "") →
      (normStep q m ls).1 ≠ [] := by
  induction ls with
  | nil =>
    intro q m h
    rcases h with h | ⟨l, hl, _⟩
    · simpa [normStep] using h
    · simp at hl
  | cons l ls ih =>
    intro q m h
    by_cases hl : l = ""
    · subst hl
      have hstep : normStep q m ("" :: ls) = normStep q (m + 1) ls := by
        simp [normStep]
      rw [hstep]
      apply ih q (m + 1)
      rcases h with h | ⟨l', hl', hne⟩
      · exact Or.inl h
      · rcases List.mem_cons.mp hl' with h' | h'
        · exact absurd h' hne
        · exact Or.inr ⟨l', h', hne⟩
    · have hbeq : (l == "") = false := by simpa using hl
      cases q with
      | nil =>
        have hstep : normStep [] m (l :: ls) = normStep [l] 0 ls := by
          simp [normStep, hbeq]
        rw [hstep]
        exact ih [l] 0 (Or.inl (by simp))
      | cons a as =>
        by_cases hm : m = 0
        · subst hm
          have hstep : normStep (a :: as) 0 (l :: ls) =
              normStep (l :: a :: as) 0 ls := by
            simp [normStep, hbeq]
          rw [hstep]
          exact ih _ 0 (Or.inl (by simp))
        · have hm0 : (m == 0) = false := by simpa using hm
          have hstep : normStep (a :: as) m (l :: ls) =
              normStep (l :: "" :: a :: as) 0 ls := by
            simp [normStep, hbeq, hm0]
          rw [hstep]
          exact ih _ 0 (Or.inl (by simp))

theorem joinSep_data_snoc (sep x : String) (xs : List String) :
    (joinSep sep (xs ++ [x])).data = (joinSep sep xs).data ++
      (if xs.isEmpty then [] else sep.data) ++ x.data := by
  induction xs with
  | nil => simp [joinSep]
  | cons y ys ih =>
    cases ys with
    | nil => simp [joinSep, String.data_append]
    | cons z zs =>
      have hcons : (z :: zs) ++ [x] = z :: (zs ++ [x]) := rfl
      show (joinSep sep (y :: ((z :: zs) ++ [x]))).data = _
      rw [hcons]
      have h1 : joinSep sep (y :: z :: (zs ++ [x])) =
          y ++ sep ++ joinSep sep (z :: (zs ++ [x])) := rfl
      have h2 : joinSep sep (y :: z :: zs) =
          y ++ sep ++ joinSep sep (z :: zs) := rfl
      rw [h1, ← hcons, h2]
      simp only [String.data_append, ih]
      simp [List.append_assoc]

/-- Un-reversing the reversed line buffer gives the lines oldest-first,
joined by line breaks. -/
theorem revLinesChars_reverse (q : List String) :
    (revLinesChars q).reverse = (joinSep "\n" q.reverse).data := by
  induction q with
  | nil => rfl
  | cons l ls ih =>
    cases ls with
    | nil => simp [revLinesChars, joinSep]
    | cons l2 ls2 =>
      rw [show revLinesChars (l :: l2 :: ls2) =
        l.data.reverse ++ '\n' :: revLinesChars (l2 :: ls2) from rfl]
      rw [List.reverse_append, List.reverse_cons, List.reverse_reverse, ih]
      rw [show (l :: l2 :: ls2).reverse = (l2 :: ls2).reverse ++ [l] from by simp]
      rw [joinSep_data_snoc]
      have hne : ((l2 :: ls2).reverse).isEmpty = false := by
        simp [List.isEmpty_iff]
      rw [hne]
      simp [List.append_assoc]

/-- Post-processing a normalization state with at least one emitted line
gives the lines with exactly one trailing line break. -/
theorem finalNewline_normOutput (l : String) (q' : List String) (m : Nat)
    (hinv : lineInv (l :: q')) :
    finalNewline (normOutput (l :: q', m)) = '\n' :: revLinesChars (l :: q') := by
  obtain ⟨hl_ne, hl_nl, -⟩ := hinv
  have hlne' : l.data ≠ [] := fun h => hl_ne (String.ext (by simp [h]))
  obtain ⟨c, cs, hrev, hcmem⟩ := revLinesChars_head l q' hlne'
  have hcnl : c ≠ '\n' := hl_nl c hcmem
  have ho : normOutput (l :: q', m) =
      List.replicate (min m 2) '\n' ++ c :: cs := by
    simp [normOutput, hrev]
  rw [ho, hrev]
  match m with
  | 0 =>
    have e1 : endsWithNonNL (c :: cs) = true := by simp [endsWithNonNL, hcnl]
    unfold finalNewline
    simp [e1]
  | 1 =>
    have e1 : endsWithNonNL ('\n' :: c :: cs) = false := by simp [endsWithNonNL]
    have e2 : endsWithTwoNL ('\n' :: c :: cs) = false :=
      endsWithTwoNL_snd_ne c cs hcnl
    have hmin : min 1 2 = 1 := rfl
    rw [hmin]
    unfold finalNewline
    simp [List.replicate_succ, e1, e2]
  | k + 2 =>
    have hmin : min (k + 2) 2 = 2 := by omega
    rw [hmin]
    have e1 : endsWithNonNL ('\n' :: '\n' :: c :: cs) = false := by
      simp [endsWithNonNL]
    have e2 : endsWithTwoNL ('\n' :: '\n' :: c :: cs) = true := by
      simp [endsWithTwoNL]
    unfold finalNewline
    simp only [List.replicate_succ, List.replicate_zero, List.nil_append,
      List.cons_append, e1, e2, Bool.false_eq_true, if_false, if_true,
      reduceIte, List.tail_cons]

/-- The formatted value of a normalization run, as a `flatSpec` string. -/
theorem final_value (lines : List String) (f : Formatter)
    (hfout : f.output = normOutput (normStep [] 0 lines))
    (hfinv : lineInv (normStep [] 0 lines).1)
    (hne : (normStep [] 0 lines).1 ≠ []) :
    String.mk (finalNewline f.output).reverse = flatSpec lines := by
  obtain ⟨l, q', hq⟩ : ∃ l q', (normStep [] 0 lines).1 = l :: q' := by
    cases h : (normStep [] 0 lines).1 with
    | nil => exact absurd h hne
    | cons a as => exact ⟨a, as, rfl⟩
  have hinv' : lineInv (l :: q') := hq ▸ hfinv
  have hout2 : f.output = normOutput (l :: q', (normStep [] 0 lines).2) := by
    rw [hfout]
    simp [normOutput, hq]
  rw [hout2, finalNewline_normOutput l q' _ hinv']
  apply String.ext
  show ('\n' :: revLinesChars (l :: q')).reverse = (flatSpec lines).data
  rw [List.reverse_cons, revLinesChars_reverse]
  have hrev : (l :: q').reverse =
      dropTrailingBlanks (collapseBlanks (dropLeadingBlanks lines)) := by
    rw [← hq]
    exact normStep_norm lines
  rw [hrev]
  simp [flatSpec, String.data_append]

/-- C8 counterexample: a newline-only stream formats to the empty string —
no trailing line break at all — and an atom whose rendering is empty makes
two adjacent atoms come out separated by two spaces, not one. -/
theorem c8_counterexample :
    format [Token.newLine] 2 = some "" ∧ ¬ endsWithOneNL "" ∧
    format [.atom ⟨1, none, some "a"⟩, .atom ⟨0, none, some ""⟩,
        .atom ⟨1, none, some "b"⟩] 0 = some "a  b\n" := by
  refine ⟨rfl, ?_, by decide⟩
  simp [endsWithOneNL, trailingNLs]

/-- C8 amended: for every stream of `Atom` and `NewLine` tokens (encoded as
its segment list; the second conjunct shows every such stream has this form)
whose atoms render successfully to nonempty texts free of line breaks, and
which contains at least one atom, the output is exactly the atoms'
renderings joined by single spaces within a line, with the caller's line
breaks preserved except that no blank line appears at the very start, at the
very end, or doubled anywhere, and with exactly one trailing line break. -/
theorem c8_flat_stream (segs : List (List AtomData)) (d : Nat)
    (hok : (segs.all fun sg => sg.all flatAtomOk) = true)
    (hne : segs.flatten ≠ []) :
    format (flatTokens segs) d = some (flatSpec (segs.map segLine)) ∧
    ∀ ts : List Token, ts.all (fun t => t.isAtom || t.isNewLine) = true →
      flatTokens (segsOf ts) = ts := by
  refine ⟨?_, segsOf_complete⟩
  cases segs with
  | nil => simp at hne
  | cons seg0 rest =>
    obtain ⟨hok0, hokrest⟩ : seg0.all flatAtomOk = true ∧
        (rest.all fun sg => sg.all flatAtomOk) = true := by
      simpa [List.all_cons] using hok
    obtain ⟨t', hgo, hout', f1, f2, f3, fnil, fcons⟩ :=
      flat_seg_start seg0 (initFormatter d) (tailTokens rest) rfl rfl rfl
        (Or.inl ⟨rfl, rfl⟩) hok0
    unfold format
    rw [show flatTokens (seg0 :: rest) = seg0.map .atom ++ tailTokens rest
      from rfl]
    rw [hgo]
    by_cases hseg : seg0 = []
    · subst hseg
      have ht' : t' = initFormatter d := fnil rfl
      obtain ⟨f, hfgo, hfout, hfinv⟩ :=
        flat_main rest (initFormatter d) [] 0 rfl rfl rfl hokrest
          (by simp [normOutput, initFormatter]) (fun _ => rfl) trivial
      rw [ht', hfgo]
      simp only [Option.map_some', Option.some.injEq]
      -- a non-blank line exists among the remaining segments
      have hlex : ∃ l ∈ rest.map segLine, l ≠ "" := by
        have hne' : rest.flatten ≠ [] := by simpa using hne
        have hsgex : ∃ sg ∈ rest, sg ≠ [] := by
          by_contra hall
          push_neg at hall
          exact hne' (List.flatten_eq_nil_iff.mpr hall)
        obtain ⟨sg, hsg, hsgne⟩ := hsgex
        obtain ⟨a, sg', rfl⟩ : ∃ a s', sg = a :: s' := by
          cases sg with
          | nil => exact absurd rfl hsgne
          | cons a s' => exact ⟨a, s', rfl⟩
        have hoksg : (a :: sg').all flatAtomOk = true :=
          List.all_eq_true.mp hokrest _ hsg
        obtain ⟨hlne, -⟩ := segLine_ok a sg' hoksg
        exact ⟨segLine (a :: sg'), List.mem_map.mpr ⟨_, hsg, rfl⟩,
          fun h => hlne (by rw [h])⟩
      have hne1 : (normStep [] 1 (rest.map segLine)).1 ≠ [] :=
        normStep_ne_nil _ [] 1 (Or.inr hlex)
      have heq01 : normStep [] 1 (rest.map segLine) =
          normStep [] 0 (rest.map segLine) := by
        have h2 := (normStep_nil_pending (rest.map segLine) 1 0).2
        exact h2 hne1
      -- lines of the whole stream: segLine [] = "" in front
      have hlines : (([] : List AtomData) :: rest).map segLine =
          "" :: rest.map segLine := by
        simp [segLine, joinSep]
      rw [hlines]
      have hstep0 : normStep [] 0 ("" :: rest.map segLine) =
          normStep [] 1 (rest.map segLine) := by
        simp [normStep]
      apply final_value
      · rw [hfout, hstep0, heq01]
      · rw [hstep0, heq01]
        exact hfinv
      · rw [hstep0, heq01]
        rw [heq01] at hne1
        exact hne1
    · obtain ⟨a, seg'', rfl⟩ : ∃ a sg, seg0 = a :: sg := by
        cases seg0 with
        | nil => exact absurd rfl hseg
        | cons a sg => exact ⟨a, sg, rfl⟩
      obtain ⟨hlne, hlnl⟩ := segLine_ok a seg'' hok0
      have hl0 : segLine (a :: seg'') ≠ "" := fun h => hlne (by rw [h])
      have hto : t'.output = normOutput ([segLine (a :: seg'')], 0) := by
        rw [hout']
        simp [normOutput, revLinesChars, pushStr, initFormatter]
      obtain ⟨f, hfgo, hfout, hfinv⟩ :=
        flat_main rest t' [segLine (a :: seg'')] 0 f1 f2 f3 hokrest hto
          (fun h => absurd h (by simp)) ⟨hl0, hlnl, by simp⟩
      rw [hfgo]
      simp only [Option.map_some', Option.some.injEq]
      have hlines : ((a :: seg'') :: rest).map segLine =
          segLine (a :: seg'') :: rest.map segLine := rfl
      rw [hlines]
      have hstep0 : normStep [] 0 (segLine (a :: seg'') :: rest.map segLine) =
          normStep [segLine (a :: seg'')] 0 (rest.map segLine) := by
        have hbeq : (segLine (a :: seg'') == "") = false := by simpa using hl0
        simp [normStep, hbeq]
      apply final_value
      · rw [hfout, hstep0]
      · rw [hstep0]
        exact hfinv
      · rw [hstep0]
        exact normStep_ne_nil _ _ 0 (Or.inl (by simp))

/-- C8 witness: the amended theorem applied to the one-segment stream of a
single atom rendering `"a"`, whose formatted output is `"a\n"`. -/
theorem c8_witness :
    format (flatTokens [[⟨1, none, some "a"⟩]]) 0 =
      some (flatSpec ([[(⟨1, none, some "a"⟩ : AtomData)]].map segLine)) ∧
    ∀ ts : List Token, ts.all (fun t => t.isAtom || t.isNewLine) = true →
      flatTokens (segsOf ts) = ts :=
  c8_flat_stream [[⟨1, none, some "a"⟩]] 0 (by decide) (by decide)

end Lispfmt
